import Mathlib

/-!
Verification of the alliance liquid-staking hub core
(contracts/alliance-lst: `execute.rs`, `contract.rs`).

The contract handlers are shallowly embedded as executable Lean functions.
`Uint128` amounts are modelled as `Nat` (the claims under consideration are
not about 128-bit overflow); `cosmwasm_std::Decimal` values are modelled as
their 18-decimal fixed-point numerator (a `Nat` over the denominator `10^18`).
A handler is a function from the persisted contract state (plus the
environment: block time, bank balances, validator whitelist) to
`Except ContractError (state × messages)`.  An `Except.error` result models
the host reverting the whole transition, so the persisted state is unchanged
exactly when the handler returns an error.

Keyed storage maps (`previous_batches`, `unbond_requests`, the delegation
ledger, `exchange_history`) are modelled as association lists with
insert-or-replace semantics.
-/

namespace AllianceLst

/-- A bank/unlocked coin: denomination and amount. -/
structure Coin where
  denom : String
  amount : Nat
deriving Repr, DecidableEq

/-- `eris::alliance_lst::AllianceStakeToken` (stake-token singleton). -/
structure AllianceStakeToken where
  utoken : String
  denom : String
  total_supply : Nat
  total_utoken_bonded : Nat
deriving Repr, DecidableEq

/-- `eris::hub::PendingBatch`. -/
structure PendingBatch where
  id : Nat
  ustake_to_burn : Nat
  est_unbond_start_time : Nat
deriving Repr, DecidableEq

/-- `eris::hub::Batch` (a previous batch). -/
structure Batch where
  id : Nat
  reconciled : Bool
  total_shares : Nat
  utoken_unclaimed : Nat
  est_unbond_end_time : Nat
deriving Repr, DecidableEq

/-- `eris::hub::UnbondRequest`. -/
structure UnbondRequest where
  id : Nat
  user : String
  shares : Nat
deriving Repr, DecidableEq

/-- `eris::hub::FeeConfig`; `protocol_reward_fee` is the Decimal numerator
over `10^18`. -/
structure FeeConfig where
  protocol_fee_contract : String
  protocol_reward_fee : Nat
deriving Repr, DecidableEq

/-- A delegation (validator, amount) as used by the handlers; the denom is
always the stake-token's `utoken` and is kept implicit. -/
structure Delegation where
  validator : String
  amount : Nat
deriving Repr, DecidableEq

/-- `eris::alliance_lst::Undelegation` (validator, amount). -/
structure Undelegation where
  validator : String
  amount : Nat
deriving Repr, DecidableEq

/-- The delegation strategy variants of `eris::hub::DelegationStrategy`.
For `gauges` the per-validator basis-point shares are the loaded delegation
goal (the external gauge loader's output), for `defined` they are the
configured `shares_bps`; `find_new_delegation` treats both identically. -/
inductive DelegationStrategy where
  | uniform
  | gauges (shares_bps : List (String × Nat))
  | defined (shares_bps : List (String × Nat))
deriving Repr, DecidableEq

/-- The contract error variants relevant to the embedded handlers
(`crate::error::ContractError`). -/
inductive ContractError where
  | Unauthorized
  | SubmitBatchAfter (t : Nat)
  | SubmitBatchFailure (provided expected : Nat)
  | NotSupported
  | NoTokensAvailable
  | StateChanged (field : String)
  | CantBeZero (field : String)
  | InsufficientBalance
  | ValidatorNotFound
  | NoValidators
  | Underflow
deriving Repr, DecidableEq

/-- The side-effecting messages a transition queues for the host. -/
inductive Msg where
  | delegateMsg (validator : String) (amount : Nat) (denom : String)
  | undelegateMsg (validator : String) (amount : Nat) (denom : String)
  | burnMsg (denom : String) (amount : Nat)
  | mintMsg (denom : String) (amount : Nat) (recipient : String)
  | feeTransferMsg (recipient : String) (amount : Nat) (denom : String)
  | bankSendMsg (recipient : String) (amount : Nat) (denom : String)
  | withdrawRewardMsg (validator : String)
  | callbackMsg (tag : String)
deriving Repr, DecidableEq

/-- The persisted contract state (the slots of `crate::state::State` the
embedded handlers touch). -/
structure HubState where
  owner : String
  operator : String
  epoch_period : Nat
  unbond_period : Nat
  fee_config : FeeConfig
  delegation_strategy : DelegationStrategy
  stake_token : AllianceStakeToken
  pending_batch : PendingBatch
  previous_batches : List (Nat × Batch)
  unbond_requests : List ((Nat × String) × UnbondRequest)
  unlocked_coins : List Coin
  alliance_delegations : List (String × Nat)
  exchange_history : List (Nat × Nat)
deriving Repr, DecidableEq

/-- The execution environment: block time, the contract's bank balances and
the validator whitelist returned by the validator proxy. -/
structure HubEnv where
  now : Nat
  bank : List Coin
  validators : List String
deriving Repr, DecidableEq

--------------------------------------------------------------------------------
-- Association-list storage helpers
--------------------------------------------------------------------------------

/-- Lookup in an association list (first matching key). -/
def alookup {κ ν : Type} [DecidableEq κ] (m : List (κ × ν)) (key : κ) : Option ν :=
  match m with
  | [] => none
  | p :: ps => if p.1 = key then some p.2 else alookup ps key

/-- Insert-or-replace in an association list. -/
def ainsert {κ ν : Type} [DecidableEq κ] (m : List (κ × ν)) (key : κ) (val : ν) :
    List (κ × ν) :=
  match m with
  | [] => [(key, val)]
  | p :: ps => if p.1 = key then (key, val) :: ps else p :: ainsert ps key val

/-- Remove a key from an association list. -/
def aremove {κ ν : Type} [DecidableEq κ] (m : List (κ × ν)) (key : κ) : List (κ × ν) :=
  match m with
  | [] => []
  | p :: ps => if p.1 = key then aremove ps key else p :: aremove ps key

/-- Build a map from a key-value list, later entries replacing earlier ones
(mirrors `Vec::into_iter().collect::<HashMap<_, _>>()`). -/
def listToMap {κ ν : Type} [DecidableEq κ] (l : List (κ × ν)) : List (κ × ν) :=
  l.foldl (fun m p => ainsert m p.1 p.2) []

/-- Amount stored under a validator, `0` when absent. -/
def amountOf (m : List (String × Nat)) (v : String) : Nat :=
  (alookup m v).getD 0

/-- The contract's bank balance of a denom (`querier.query_balance`). -/
def bankBalance (env : HubEnv) (denom : String) : Nat :=
  ((env.bank.find? (fun c => c.denom = denom)).map (·.amount)).getD 0

/-- `Coins::find`: the amount of a denom inside a coin list, `0` when absent. -/
def coinsFind (coins : List Coin) (denom : String) : Nat :=
  ((coins.find? (fun c => c.denom = denom)).map (·.amount)).getD 0

--------------------------------------------------------------------------------
-- Fixed-point decimals and checked arithmetic
--------------------------------------------------------------------------------

/-- The fixed denominator of `cosmwasm_std::Decimal`. -/
def decimalOne : Nat := 1000000000000000000

/-- `Decimal::checked_mul_uint` / `Decimal * Uint128`: multiply a Decimal
(numerator `d` over `10^18`) by an integer amount, flooring. -/
def decimal_mul_uint (d a : Nat) : Nat :=
  d * a / decimalOne

/-- `Uint128::checked_sub`, erroring on underflow (the host reverts). -/
def checked_sub (a b : Nat) : Except ContractError Nat :=
  if a < b then .error .Underflow else .ok (a - b)

--------------------------------------------------------------------------------
-- check_slashing (execute.rs)
--------------------------------------------------------------------------------

/-- `execute::check_slashing`: owner/operator-gated atomic replacement of the
delegation ledger from an externally reported snapshot. -/
def check_slashing (st : HubState) (sender : String)
    (current_delegations : List (String × Nat)) (state_total_utoken_bonded : Nat) :
    Except ContractError HubState :=
  if ¬ (sender = st.owner ∨ sender = st.operator) then .error .Unauthorized
  else if st.stake_token.total_utoken_bonded ≠ state_total_utoken_bonded then
    .error (.StateChanged "total_utoken_bonded")
  else if st.alliance_delegations.length ≠ current_delegations.length then
    .error (.StateChanged "delegations")
  else if (current_delegations.map (·.2)).sum < state_total_utoken_bonded * 95 / 100 then
    .error (.StateChanged "big slash")
  else
    .ok { st with
      stake_token := { st.stake_token with
        total_utoken_bonded := (current_delegations.map (·.2)).sum },
      alliance_delegations := listToMap current_delegations }

--------------------------------------------------------------------------------
-- Spec-modelled share math and ledger operations
-- (crate::math and crate::types::alliance_delegations are not part of the
--  provided sources; they are modelled from the specification, §4.A / §4.B)
--------------------------------------------------------------------------------

/-- Modelled from the spec: `compute_unbond_amount(supply, shares_burned,
bonded) = bonded · shares_burned / supply`, floor (`crate::math` is not in the
provided sources).  `Nat` division returns `0` for `supply = 0`. -/
def compute_unbond_amount (supply shares_burned bonded : Nat) : Nat :=
  bonded * shares_burned / supply

/-- Modelled from the spec: `query_all_delegations` (crate::helpers, not in
the provided sources) returns the ledger entries as delegations, in ledger
iteration order. -/
def query_all_delegations (ledger : List (String × Nat)) : List Delegation :=
  ledger.map (fun p => ⟨p.1, p.2⟩)

/-- Modelled from the spec: `query_delegations` (crate::helpers, not in the
provided sources) returns one delegation per whitelisted validator, with the
ledger amount or `0` when absent. -/
def query_delegations (ledger : List (String × Nat)) (validators : List String) :
    List Delegation :=
  validators.map (fun v => ⟨v, amountOf ledger v⟩)

/-- Modelled from the spec: `get_utoken_per_validator` (crate::math, not in
the provided sources) computes `wanted[v] = total · share[v]` (floor) from the
strategy's basis-point shares. -/
def get_utoken_per_validator (total : Nat) (shares_bps : List (String × Nat)) :
    List (String × Nat) :=
  shares_bps.map (fun p => (p.1, total * p.2 / 10000))

/-- First validator with the largest current delegation (the spec's target
for the floor-division remainder). -/
def largest_delegation_validator : List Delegation → Option String
  | [] => none
  | d :: ds =>
    some ((ds.foldl (fun acc x => if x.amount > acc.amount then x else acc) d).validator)

/-- Add `extra` to the first undelegation entry of validator `v`. -/
def add_to_validator (v : String) (extra : Nat) : List Undelegation → List Undelegation
  | [] => []
  | u :: us =>
    if u.validator = v then { u with amount := u.amount + extra } :: us
    else u :: add_to_validator v extra us

/-- Modelled from the spec: `compute_undelegations(target, current)` splits
`target` across the currently delegated validators proportionally to current
delegation magnitude (floor division), assigning the remainder to the largest
current delegation, so that the returned amounts sum to `target` exactly
(`crate::math` is not in the provided sources). -/
def compute_undelegations (target : Nat) (current : List Delegation) :
    List Undelegation :=
  let total := (current.map (·.amount)).sum
  if total = 0 then []
  else
    let base := current.map (fun d => Undelegation.mk d.validator (target * d.amount / total))
    let assigned := (base.map (·.amount)).sum
    match largest_delegation_validator current with
    | none => base
    | some v => add_to_validator v (target - assigned) base

/-- Modelled from the spec (§4.B): `AllianceDelegations::delegate` increments
the target validator's entry. -/
def delegateLedger (m : List (String × Nat)) (d : Delegation) : List (String × Nat) :=
  ainsert m d.validator (amountOf m d.validator + d.amount)

/-- Modelled from the spec (§4.B): undelegating a single entry fails with
`ValidatorNotFound` when the validator is absent and `InsufficientBalance`
when its running total would go negative. -/
def undelegateOne (m : List (String × Nat)) (u : Undelegation) :
    Except ContractError (List (String × Nat)) :=
  match alookup m u.validator with
  | none => .error .ValidatorNotFound
  | some cur =>
    if cur < u.amount then .error .InsufficientBalance
    else .ok (ainsert m u.validator (cur - u.amount))

/-- Modelled from the spec (§4.B): `AllianceDelegations::undelegate` applies
each undelegation in order, failing as `undelegateOne` does. -/
def undelegateLedger (m : List (String × Nat)) :
    List Undelegation → Except ContractError (List (String × Nat))
  | [] => .ok m
  | u :: us =>
    match undelegateOne m u with
    | .error e => .error e
    | .ok m' => undelegateLedger m' us

/-- Modelled from the spec: `mark_reconciled_batches` sets `reconciled = true`
on all supplied batches (`crate::math` is not in the provided sources). -/
def mark_reconciled_batches (batches : List Batch) : List Batch :=
  batches.map (fun b => { b with reconciled := true })

/-- Helper for `reconcile_batches`: deduct `share b` from every batch, adding
the floor-division remainder to the first batch whose `utoken_unclaimed`
equals the maximum `maxU`, and mark everything reconciled. -/
def apply_deduction (share : Batch → Nat) (remainder maxU : Nat) :
    List Batch → List Batch
  | [] => []
  | b :: bs =>
    if b.utoken_unclaimed = maxU then
      { b with reconciled := true,
               utoken_unclaimed := b.utoken_unclaimed - (share b + remainder) } ::
        bs.map (fun x => { x with reconciled := true,
                                  utoken_unclaimed := x.utoken_unclaimed - share x })
    else
      { b with reconciled := true, utoken_unclaimed := b.utoken_unclaimed - share b } ::
        apply_deduction share remainder maxU bs

/-- Modelled from the spec: `reconcile_batches(batches, deficit)` allocates
the shortfall across batches proportionally to `utoken_unclaimed` (floor),
assigns the remainder to the largest batch and marks all of them reconciled
(`crate::math` is not in the provided sources). -/
def reconcile_batches (batches : List Batch) (deficit : Nat) : List Batch :=
  let total := (batches.map (·.utoken_unclaimed)).sum
  if total = 0 then mark_reconciled_batches batches
  else
    let share := fun (b : Batch) => deficit * b.utoken_unclaimed / total
    let assigned := (batches.map share).sum
    let maxU := (batches.map (·.utoken_unclaimed)).foldl max 0
    apply_deduction share (deficit - assigned) maxU batches

--------------------------------------------------------------------------------
-- find_new_delegation (execute.rs)
--------------------------------------------------------------------------------

/-- The saturated difference `wanted[v] − current[v]` driving the
Gauges/Defined selection (`map.get(...).unwrap_or_default().saturating_sub`;
`Nat` subtraction is saturating). -/
def gauge_diff (map : List (String × Nat)) (d : Delegation) : Nat :=
  amountOf map d.validator - d.amount

/-- One step of the Gauges/Defined selection loop in
`execute::find_new_delegation`: keep the accumulator unless this
delegation's saturated difference to the wanted amount strictly exceeds it
(or nothing was selected yet). -/
def gauge_step (map : List (String × Nat)) (acc : Option String × Nat)
    (d : Delegation) : Option String × Nat :=
  if gauge_diff map d > acc.2 ∨ acc.1 = none then
    (some d.validator, gauge_diff map d)
  else acc

/-- `execute::find_new_delegation`: picks the validator receiving a new bond.
Uniform: the first whitelisted validator with the smallest delegation.
Gauges/Defined: the first currently delegated validator maximising the
saturated difference to the wanted distribution; the first whitelisted
validator when there are no current delegations.  The source indexes into a
nonempty list where this model returns `NoValidators`. -/
def find_new_delegation (strat : DelegationStrategy) (validators : List String)
    (ledger : List (String × Nat)) (utoken_to_bond : Nat) :
    Except ContractError Delegation :=
  match strat with
  | .uniform =>
    match query_delegations ledger validators with
    | [] => .error .NoValidators
    | d0 :: rest =>
      let best := rest.foldl (fun acc d => if d.amount < acc.amount then d else acc) d0
      .ok ⟨best.validator, utoken_to_bond⟩
  | .gauges shares_bps | .defined shares_bps =>
    let current_delegations := query_all_delegations ledger
    let utoken_staked := (current_delegations.map (·.amount)).sum
    let map := get_utoken_per_validator (utoken_staked + utoken_to_bond) shares_bps
    let sel := current_delegations.foldl (gauge_step map) (none, 0)
    match sel.1 with
    | some v => .ok ⟨v, utoken_to_bond⟩
    | none =>
      match validators with
      | [] => .error .NoValidators
      | v :: _ => .ok ⟨v, utoken_to_bond⟩

--------------------------------------------------------------------------------
-- harvest (execute.rs)
--------------------------------------------------------------------------------

/-- `execute::harvest`: rejects the `withdrawals`/`stages` parameters with
`NotSupported`, then queues reward-withdraw messages (for the given
validators, or all currently delegated ones) followed by the callback chain.
The sender is not inspected and the persisted state is not modified, so the
result is the queued message list. -/
def harvest (st : HubState) (validators : Option (List String))
    (withdrawals : Option Unit) (stages : Option Unit) (_sender : String) :
    Except ContractError (List Msg) :=
  if stages.isSome ∨ withdrawals.isSome then .error .NotSupported
  else
    let withdraw_submsgs := match validators with
      | some vs => vs.map Msg.withdrawRewardMsg
      | none =>
        (query_all_delegations st.alliance_delegations).map
          (fun d => Msg.withdrawRewardMsg d.validator)
    .ok (withdraw_submsgs ++
      [Msg.callbackMsg "half_swap_reward", Msg.callbackMsg "provide_liquidity",
       Msg.callbackMsg "check_received_coin", Msg.callbackMsg "reinvest"])

--------------------------------------------------------------------------------
-- submit_batch (execute.rs)
--------------------------------------------------------------------------------

/-- `execute::submit_batch`: freezes the pending batch into
`previous_batches`, allocates the next accumulating batch, undelegates the
computed amount and burns the queued shares. -/
def submit_batch (st : HubState) (env : HubEnv) (sender : String)
    (undelegations : Option (List Undelegation)) :
    Except ContractError (HubState × List Msg) :=
  let stake := st.stake_token
  let pending_batch := st.pending_batch
  let current_time := env.now
  if current_time < pending_batch.est_unbond_start_time then
    .error (.SubmitBatchAfter pending_batch.est_unbond_start_time)
  else
    let utoken_to_unbond :=
      compute_unbond_amount stake.total_supply pending_batch.ustake_to_burn
        stake.total_utoken_bonded
    let undelegationsResult : Except ContractError (List Undelegation) :=
      match undelegations with
      | some us =>
        if ¬ sender = st.operator then .error .Unauthorized
        else
          let provided_amount := (us.map (·.amount)).sum
          if provided_amount ≠ utoken_to_unbond then
            .error (.SubmitBatchFailure provided_amount utoken_to_unbond)
          else .ok us
      | none =>
        .ok (compute_undelegations utoken_to_unbond
              (query_all_delegations st.alliance_delegations))
    match undelegationsResult with
    | .error e => .error e
    | .ok new_undelegations =>
      match undelegateLedger st.alliance_delegations new_undelegations with
      | .error e => .error e
      | .ok new_ledger =>
        -- the two `checked_sub` calls of the source, inlined
        if stake.total_utoken_bonded < utoken_to_unbond then .error .Underflow
        else if stake.total_supply < pending_batch.ustake_to_burn then .error .Underflow
        else
          let msgs :=
            new_undelegations.map
              (fun d => Msg.undelegateMsg d.validator d.amount stake.utoken) ++
            [Msg.burnMsg stake.denom pending_batch.ustake_to_burn,
             Msg.callbackMsg "check_received_coin"]
          .ok ({ st with
            previous_batches := ainsert st.previous_batches pending_batch.id
              { id := pending_batch.id
                reconciled := false
                total_shares := pending_batch.ustake_to_burn
                utoken_unclaimed := utoken_to_unbond
                est_unbond_end_time := current_time + st.unbond_period },
            pending_batch :=
              { id := pending_batch.id + 1
                ustake_to_burn := 0
                est_unbond_start_time := current_time + st.epoch_period },
            alliance_delegations := new_ledger,
            stake_token :=
              { stake with
                total_utoken_bonded := stake.total_utoken_bonded - utoken_to_unbond
                total_supply := stake.total_supply - pending_batch.ustake_to_burn } }, msgs)

--------------------------------------------------------------------------------
-- reconcile (execute.rs)
--------------------------------------------------------------------------------

/-- The batches `execute::reconcile` operates on: unreconciled previous
batches whose unbonding has strictly finished (`current_time >
est_unbond_end_time`). -/
def reconcilable_batches (st : HubState) (now : Nat) : List Batch :=
  ((st.previous_batches.filter (fun p => p.2.reconciled = false)).map (·.2)).filter
    (fun b => now > b.est_unbond_end_time)

/-- `execute::reconcile`: measures the contract's actual `utoken` balance
against the matured unreconciled batches plus the unlocked amount; marks the
batches reconciled, allocating the deficit (if any) across them. -/
def reconcile (st : HubState) (env : HubEnv) :
    Except ContractError (HubState × List Msg) :=
  let stake := st.stake_token
  let current_time := env.now
  let batches := reconcilable_batches st current_time
  let utoken_expected_received := (batches.map (·.utoken_unclaimed)).sum
  if utoken_expected_received = 0 then .ok (st, [])
  else
    let utoken_expected_unlocked := coinsFind st.unlocked_coins stake.utoken
    let utoken_expected := utoken_expected_received + utoken_expected_unlocked
    let utoken_actual := bankBalance env stake.utoken
    if utoken_actual ≥ utoken_expected then
      let marked := mark_reconciled_batches batches
      .ok ({ st with
        previous_batches := marked.foldl (fun s b => ainsert s b.id b) st.previous_batches }, [])
    else
      let utoken_to_deduct := utoken_expected - utoken_actual
      let adjusted := reconcile_batches batches utoken_to_deduct
      .ok ({ st with
        previous_batches := adjusted.foldl (fun s b => ainsert s b.id b) st.previous_batches }, [])

--------------------------------------------------------------------------------
-- withdraw_unbonded (execute.rs)
--------------------------------------------------------------------------------

/-- The accumulator threaded through the `withdraw_unbonded` request loop. -/
structure WithdrawAcc where
  batches : List (Nat × Batch)
  requests : List ((Nat × String) × UnbondRequest)
  total : Nat
deriving Repr, DecidableEq

/-- One iteration of the `withdraw_unbonded` loop: pay out a request whose
batch is reconciled and has strictly finished unbonding, updating or deleting
the batch and removing the request. -/
def withdraw_step (now : Nat) (user : String) (acc : WithdrawAcc)
    (request : UnbondRequest) : WithdrawAcc :=
  match alookup acc.batches request.id with
  | none => acc
  | some batch =>
    if batch.reconciled ∧ batch.est_unbond_end_time < now then
      let utoken_to_refund := batch.utoken_unclaimed * request.shares / batch.total_shares
      let batch' := { batch with
        total_shares := batch.total_shares - request.shares
        utoken_unclaimed := batch.utoken_unclaimed - utoken_to_refund }
      { batches :=
          if batch'.total_shares = 0 then aremove acc.batches request.id
          else ainsert acc.batches batch.id batch'
        requests := aremove acc.requests (request.id, user)
        total := acc.total + utoken_to_refund }
    else acc

/-- The sender's unbond requests, as returned by the `user` secondary index
scan. -/
def user_requests (st : HubState) (user : String) : List UnbondRequest :=
  (st.unbond_requests.filter (fun p => p.1.2 = user)).map (·.2)

/-- The refund a single request receives from the original batch store (zero
when its batch is missing, unreconciled or not strictly matured). -/
def refund_of (batches : List (Nat × Batch)) (now : Nat) (r : UnbondRequest) : Nat :=
  match alookup batches r.id with
  | none => 0
  | some b =>
    if b.reconciled ∧ b.est_unbond_end_time < now then
      b.utoken_unclaimed * r.shares / b.total_shares
    else 0

/-- `execute::withdraw_unbonded`: pays out all of the user's requests in
reconciled, strictly matured batches; errors with `CantBeZero` when the total
refund is zero (reverting any per-request bookkeeping). -/
def withdraw_unbonded (st : HubState) (env : HubEnv) (user receiver : String) :
    Except ContractError (HubState × List Msg) :=
  let requests := user_requests st user
  let acc := requests.foldl (withdraw_step env.now user)
    ⟨st.previous_batches, st.unbond_requests, 0⟩
  if acc.total = 0 then .error (.CantBeZero "withdrawable amount")
  else
    .ok ({ st with previous_batches := acc.batches, unbond_requests := acc.requests },
      [Msg.bankSendMsg receiver acc.total st.stake_token.utoken])

--------------------------------------------------------------------------------
-- reinvest (execute.rs)
--------------------------------------------------------------------------------

/-- One iteration of the `reinvest` coin loop: a `utoken` coin is delegated
net of the protocol fee, a stake-denom coin is burned net of the fee, any
other denom is ignored; a nonzero fee queues a fee transfer. -/
def reinvest_step (strat : DelegationStrategy) (validators : List String)
    (fee_contract : String) (protocol_reward_fee : Nat)
    (acc : AllianceStakeToken × List (String × Nat) × List Msg) (coin : Coin) :
    Except ContractError (AllianceStakeToken × List (String × Nat) × List Msg) :=
  let (stake, ledger, msgs) := acc
  let available := coin.amount
  let protocol_fee := decimal_mul_uint protocol_reward_fee available
  let remaining := available - protocol_fee
  if coin.denom = stake.utoken then
    let to_bond := remaining
    match find_new_delegation strat validators ledger to_bond with
    | .error e => .error e
    | .ok new_delegation =>
      let stake' := { stake with total_utoken_bonded := stake.total_utoken_bonded + to_bond }
      let ledger' := delegateLedger ledger new_delegation
      let msgs' := msgs ++ [Msg.delegateMsg new_delegation.validator new_delegation.amount stake.utoken]
      let msgs'' :=
        if protocol_fee ≠ 0 then
          msgs' ++ [Msg.feeTransferMsg fee_contract protocol_fee coin.denom]
        else msgs'
      .ok (stake', ledger', msgs'')
  else if coin.denom = stake.denom then
    match checked_sub stake.total_supply remaining with
    | .error e => .error e
    | .ok new_supply =>
      let stake' := { stake with total_supply := new_supply }
      let msgs' := msgs ++ [Msg.burnMsg stake.denom remaining]
      let msgs'' :=
        if protocol_fee ≠ 0 then
          msgs' ++ [Msg.feeTransferMsg fee_contract protocol_fee coin.denom]
        else msgs'
      .ok (stake', ledger, msgs'')
  else
    .ok (stake, ledger, msgs)

/-- The `reinvest` loop over the unlocked coins. -/
def reinvest_loop (strat : DelegationStrategy) (validators : List String)
    (fee_contract : String) (protocol_reward_fee : Nat) :
    List Coin → (AllianceStakeToken × List (String × Nat) × List Msg) →
    Except ContractError (AllianceStakeToken × List (String × Nat) × List Msg)
  | [], acc => .ok acc
  | c :: cs, acc =>
    match reinvest_step strat validators fee_contract protocol_reward_fee acc c with
    | .error e => .error e
    | .ok acc' => reinvest_loop strat validators fee_contract protocol_reward_fee cs acc'

/-- `execute::calc_current_exchange_rate`: `Decimal::one()` when the supply
is zero, else `Decimal::from_ratio(total_utoken_bonded, total_supply)`
(18-decimal fixed point, floor). -/
def calc_current_exchange_rate (stake : AllianceStakeToken) : Nat :=
  if stake.total_supply = 0 then decimalOne
  else stake.total_utoken_bonded * decimalOne / stake.total_supply

/-- `execute::reinvest`: converts the unlocked coins (restaking `utoken`,
burning the stake denom, each net of the protocol fee unless `skip_fee`),
clears the converted entries and records the exchange rate at the block
time. -/
def reinvest (st : HubState) (env : HubEnv) (skip_fee : Bool) :
    Except ContractError (HubState × List Msg) :=
  if st.unlocked_coins.isEmpty then .error .NoTokensAvailable
  else
    let protocol_reward_fee :=
      if skip_fee then 0 else st.fee_config.protocol_reward_fee
    match reinvest_loop st.delegation_strategy env.validators
        st.fee_config.protocol_fee_contract protocol_reward_fee st.unlocked_coins
        (st.stake_token, st.alliance_delegations, []) with
    | .error e => .error e
    | .ok (stake', ledger', msgs) =>
      let unlocked' := st.unlocked_coins.filter
        (fun c => ¬ c.denom = stake'.utoken ∧ ¬ c.denom = stake'.denom)
      let exchange_rate := calc_current_exchange_rate stake'
      .ok ({ st with
        stake_token := stake'
        alliance_delegations := ledger'
        unlocked_coins := unlocked'
        exchange_history := ainsert st.exchange_history env.now exchange_rate }, msgs)

--------------------------------------------------------------------------------
-- Association-list lemmas
--------------------------------------------------------------------------------

theorem alookup_ainsert_self {κ ν : Type} [DecidableEq κ] (m : List (κ × ν))
    (k : κ) (v : ν) : alookup (ainsert m k v) k = some v := by
  induction m with
  | nil => simp [ainsert, alookup]
  | cons p ps ih =>
    by_cases h : p.1 = k
    · simp [ainsert, alookup, h]
    · simp [ainsert, alookup, h, ih]

theorem alookup_ainsert_ne {κ ν : Type} [DecidableEq κ] (m : List (κ × ν))
    (k k' : κ) (v : ν) (h : k' ≠ k) :
    alookup (ainsert m k v) k' = alookup m k' := by
  induction m with
  | nil => simp [ainsert, alookup, Ne.symm h]
  | cons p ps ih =>
    by_cases hp : p.1 = k
    · simp [ainsert, alookup, hp, Ne.symm h]
    · simp only [ainsert, if_neg hp]
      by_cases hp' : p.1 = k'
      · simp [alookup, hp']
      · simp [alookup, hp', ih]

theorem alookup_aremove_ne {κ ν : Type} [DecidableEq κ] (m : List (κ × ν))
    (k k' : κ) (h : k' ≠ k) :
    alookup (aremove m k) k' = alookup m k' := by
  induction m with
  | nil => simp [aremove]
  | cons p ps ih =>
    by_cases hp : p.1 = k
    · simp [aremove, alookup, hp, ih, Ne.symm h]
    · simp only [aremove, if_neg hp]
      by_cases hp' : p.1 = k'
      · simp [alookup, hp']
      · simp [alookup, hp', ih]

theorem alookup_aremove_self {κ ν : Type} [DecidableEq κ] (m : List (κ × ν))
    (k : κ) : alookup (aremove m k) k = none := by
  induction m with
  | nil => simp [aremove, alookup]
  | cons p ps ih =>
    by_cases hp : p.1 = k
    · simp [aremove, hp, ih]
    · simp [aremove, alookup, hp, ih]

/-- Membership of a coherent key in a nodup association list determines the
lookup. -/
theorem alookup_of_mem {κ ν : Type} [DecidableEq κ] (m : List (κ × ν))
    (k : κ) (v : ν) (hmem : (k, v) ∈ m) (hnd : (m.map (·.1)).Nodup) :
    alookup m k = some v := by
  induction m with
  | nil => simp at hmem
  | cons p ps ih =>
    simp only [List.map_cons, List.nodup_cons] at hnd
    rcases List.mem_cons.mp hmem with h | h
    · subst h
      simp [alookup]
    · have hne : p.1 ≠ k := by
        intro hk
        exact hnd.1 (hk ▸ (List.mem_map.mpr ⟨(k, v), h, rfl⟩))
      simp [alookup, hne, ih h hnd.2]

--------------------------------------------------------------------------------
-- Concrete states used by witnesses and counterexamples
--------------------------------------------------------------------------------

/-- A small concrete contract state used to instantiate theorems. -/
def exState : HubState where
  owner := "owner"
  operator := "operator"
  epoch_period := 259200
  unbond_period := 1814400
  fee_config := { protocol_fee_contract := "fee", protocol_reward_fee := 10000000000000000 }
  delegation_strategy := .uniform
  stake_token :=
    { utoken := "utoken", denom := "ustake"
      total_supply := 1000000, total_utoken_bonded := 1000000 }
  pending_batch := { id := 1, ustake_to_burn := 0, est_unbond_start_time := 100 }
  previous_batches := []
  unbond_requests := []
  unlocked_coins := []
  alliance_delegations := [("alice", 1000000)]
  exchange_history := []

/-- The state `check_slashing` produces from `exState` for the snapshot
`[("alice", 990000)]`. -/
def exSlashedState : HubState :=
  { exState with
    stake_token := { exState.stake_token with total_utoken_bonded := 990000 }
    alliance_delegations := [("alice", 990000)] }

--------------------------------------------------------------------------------
-- C4: check_slashing succeeds exactly under its four guards and
--     resynchronises ledger and total
--------------------------------------------------------------------------------

/-- C4: `check_slashing(sender, reported_delegations, reported_total_bonded)`
succeeds iff the sender is the owner or the operator, the stored
`total_utoken_bonded` equals `reported_total_bonded`, the stored delegation
map has as many entries as `reported_delegations`, and the reported amounts
sum to at least `floor(0.95 · reported_total_bonded)`; on success it replaces
the delegation map with the reported one and sets `total_utoken_bonded` to
the reported sum.  Any failure is an `Except.error`, which models the host
reverting the transition, so the state is unchanged. -/
theorem check_slashing_spec (st : HubState) (sender : String)
    (ds : List (String × Nat)) (reported : Nat) :
    ((∃ st', check_slashing st sender ds reported = .ok st') ↔
      ((sender = st.owner ∨ sender = st.operator) ∧
        st.stake_token.total_utoken_bonded = reported ∧
        st.alliance_delegations.length = ds.length ∧
        reported * 95 / 100 ≤ (ds.map (·.2)).sum)) ∧
    (∀ st', check_slashing st sender ds reported = .ok st' →
      st'.alliance_delegations = listToMap ds ∧
      st'.stake_token.total_utoken_bonded = (ds.map (·.2)).sum) := by
  constructor
  · constructor
    · rintro ⟨st', h⟩
      unfold check_slashing at h
      split at h
      · exact absurd h (by simp)
      · split at h
        · exact absurd h (by simp)
        · split at h
          · exact absurd h (by simp)
          · split at h
            · exact absurd h (by simp)
            · rename_i h1 h2 h3 h4
              push_neg at h1 h2 h3 h4
              exact ⟨h1, h2, h3, h4⟩
    · rintro ⟨h1, h2, h3, h4⟩
      refine ⟨{ st with
        stake_token := { st.stake_token with
          total_utoken_bonded := (ds.map (·.2)).sum },
        alliance_delegations := listToMap ds }, ?_⟩
      unfold check_slashing
      rw [if_neg (not_not_intro h1), if_neg (not_not_intro h2),
        if_neg (not_not_intro h3), if_neg (Nat.not_lt.mpr h4)]
  · intro st' h
    unfold check_slashing at h
    split at h
    · exact absurd h (by simp)
    · split at h
      · exact absurd h (by simp)
      · split at h
        · exact absurd h (by simp)
        · split at h
          · exact absurd h (by simp)
          · simp only [Except.ok.injEq] at h
            subst h
            exact ⟨rfl, rfl⟩

/-- Witness for C4 at a concrete input (a 1% drop reported by the
operator). -/
theorem check_slashing_spec_witness :
    ∃ st', check_slashing exState "operator" [("alice", 990000)] 1000000 = .ok st' :=
  (check_slashing_spec exState "operator" [("alice", 990000)] 1000000).1.mpr
    ⟨Or.inr rfl, rfl, rfl, by norm_num⟩

--------------------------------------------------------------------------------
-- C9: check_slashing frame — only the ledger and total_utoken_bonded move
--------------------------------------------------------------------------------

/-- C9: a successful `check_slashing` modifies only the alliance delegation
map and `stake_token.total_utoken_bonded`: the share supply, the token
identifiers, the pending batch, the previous batches, the unbond requests,
the unlocked coins and the exchange history are all unchanged. -/
theorem check_slashing_frame (st st' : HubState) (sender : String)
    (ds : List (String × Nat)) (reported : Nat)
    (h : check_slashing st sender ds reported = .ok st') :
    st'.stake_token.total_supply = st.stake_token.total_supply ∧
    st'.stake_token.utoken = st.stake_token.utoken ∧
    st'.stake_token.denom = st.stake_token.denom ∧
    st'.pending_batch = st.pending_batch ∧
    st'.previous_batches = st.previous_batches ∧
    st'.unbond_requests = st.unbond_requests ∧
    st'.unlocked_coins = st.unlocked_coins ∧
    st'.exchange_history = st.exchange_history := by
  unfold check_slashing at h
  split at h
  · exact absurd h (by simp)
  · split at h
    · exact absurd h (by simp)
    · split at h
      · exact absurd h (by simp)
      · split at h
        · exact absurd h (by simp)
        · simp only [Except.ok.injEq] at h
          subst h
          exact ⟨rfl, rfl, rfl, rfl, rfl, rfl, rfl, rfl⟩

/-- Witness for C9: the frame conditions hold on a concrete successful
slashing adjustment. -/
theorem check_slashing_frame_witness :
    exSlashedState.stake_token.total_supply = exState.stake_token.total_supply ∧
    exSlashedState.stake_token.utoken = exState.stake_token.utoken ∧
    exSlashedState.stake_token.denom = exState.stake_token.denom ∧
    exSlashedState.pending_batch = exState.pending_batch ∧
    exSlashedState.previous_batches = exState.previous_batches ∧
    exSlashedState.unbond_requests = exState.unbond_requests ∧
    exSlashedState.unlocked_coins = exState.unlocked_coins ∧
    exSlashedState.exchange_history = exState.exchange_history :=
  check_slashing_frame exState exSlashedState "operator" [("alice", 990000)] 1000000
    (by rfl)

--------------------------------------------------------------------------------
-- C6: harvest ignores the sender; withdrawals/stages are NotSupported
--------------------------------------------------------------------------------

/-- C6 counterexample: the claim that harvest fails for every non-operator
sender is false — `execute::harvest` never inspects the sender, so a
non-operator call with neither `withdrawals` nor `stages` succeeds. -/
theorem harvest_non_operator_succeeds :
    ¬ ("mallory" = exState.operator) ∧
    (harvest exState none none none "mallory").isOk = true := by
  refine ⟨by decide, rfl⟩

/-- C6 (amended): `harvest` ignores the sender — any sender may invoke it and
the result does not depend on the sender — and for every sender it fails with
`NotSupported` exactly when the `withdrawals` or `stages` parameter is
provided. -/
theorem harvest_spec (st : HubState) (validators : Option (List String))
    (withdrawals stages : Option Unit) (sender sender' : String) :
    (withdrawals.isSome = true ∨ stages.isSome = true →
      harvest st validators withdrawals stages sender = .error .NotSupported) ∧
    (withdrawals = none → stages = none →
      (harvest st validators withdrawals stages sender).isOk = true) ∧
    harvest st validators withdrawals stages sender =
      harvest st validators withdrawals stages sender' := by
  refine ⟨?_, ?_, rfl⟩
  · intro h
    unfold harvest
    rw [if_pos (Or.symm h)]
  · rintro rfl rfl
    rfl

/-- Witness for C6's amended claim: providing `stages` fails with
`NotSupported`, and an arbitrary sender's call without them succeeds. -/
theorem harvest_spec_witness :
    harvest exState none none (some ()) "mallory" = .error .NotSupported ∧
    (harvest exState none none none "anyone").isOk = true :=
  ⟨(harvest_spec exState none none (some ()) "mallory" "x").1 (Or.inr rfl),
   (harvest_spec exState none none none "anyone" "x").2.1 rfl rfl⟩

--------------------------------------------------------------------------------
-- submit_batch: shared success characterisation (used by C1 and C5)
--------------------------------------------------------------------------------

/-- The utoken amount `submit_batch` unbonds for the pending batch of `st`. -/
def expected_unbond (st : HubState) : Nat :=
  compute_unbond_amount st.stake_token.total_supply st.pending_batch.ustake_to_burn
    st.stake_token.total_utoken_bonded

theorem submit_batch_ok_state (st : HubState) (env : HubEnv) (sender : String)
    (undel : Option (List Undelegation)) (st' : HubState) (msgs : List Msg)
    (h : submit_batch st env sender undel = .ok (st', msgs)) :
    st.pending_batch.est_unbond_start_time ≤ env.now ∧
    st'.previous_batches = ainsert st.previous_batches st.pending_batch.id
      { id := st.pending_batch.id, reconciled := false,
        total_shares := st.pending_batch.ustake_to_burn,
        utoken_unclaimed := expected_unbond st,
        est_unbond_end_time := env.now + st.unbond_period } ∧
    st'.pending_batch =
      { id := st.pending_batch.id + 1, ustake_to_burn := 0,
        est_unbond_start_time := env.now + st.epoch_period } ∧
    st'.stake_token.total_supply + st.pending_batch.ustake_to_burn =
      st.stake_token.total_supply ∧
    st'.stake_token.total_utoken_bonded + expected_unbond st =
      st.stake_token.total_utoken_bonded := by
  simp only [submit_batch] at h
  repeat' split at h
  all_goals
    first
      | exact (Except.noConfusion h : False).elim
      | (simp only [Except.ok.injEq, Prod.mk.injEq] at h
         obtain ⟨hst, -⟩ := h
         subst hst
         refine ⟨by omega, rfl, rfl, ?_, ?_⟩ <;> (dsimp only [expected_unbond]; omega))

--------------------------------------------------------------------------------
-- C1: submit_batch — early failure and the happy-path state transition
--------------------------------------------------------------------------------

/-- C1: calling `submit_batch` before `est_unbond_start_time` fails with
`SubmitBatchAfter` (the error reverts the transition, so the state is
unchanged); from `est_unbond_start_time` on, a successful call stores a
previous batch `{id, reconciled = false, total_shares = ustake_to_burn,
utoken_unclaimed = compute_unbond_amount(total_supply, ustake_to_burn,
total_utoken_bonded), est_unbond_end_time = now + unbond_period}`, replaces
the pending batch by `{id + 1, 0, now + epoch_period}` and decreases
`total_supply` by `ustake_to_burn` and `total_utoken_bonded` by the
`utoken_unclaimed` amount. -/
theorem submit_batch_spec (st : HubState) (env : HubEnv) (sender : String) :
    (env.now < st.pending_batch.est_unbond_start_time →
      submit_batch st env sender none =
        .error (.SubmitBatchAfter st.pending_batch.est_unbond_start_time)) ∧
    (∀ st' msgs, submit_batch st env sender none = .ok (st', msgs) →
      st.pending_batch.est_unbond_start_time ≤ env.now ∧
      alookup st'.previous_batches st.pending_batch.id = some
        { id := st.pending_batch.id, reconciled := false,
          total_shares := st.pending_batch.ustake_to_burn,
          utoken_unclaimed := expected_unbond st,
          est_unbond_end_time := env.now + st.unbond_period } ∧
      st'.pending_batch =
        { id := st.pending_batch.id + 1, ustake_to_burn := 0,
          est_unbond_start_time := env.now + st.epoch_period } ∧
      st'.stake_token.total_supply + st.pending_batch.ustake_to_burn =
        st.stake_token.total_supply ∧
      st'.stake_token.total_utoken_bonded + expected_unbond st =
        st.stake_token.total_utoken_bonded) := by
  constructor
  · intro h
    unfold submit_batch
    rw [if_pos h]
  · intro st' msgs h
    obtain ⟨ht, hprev, hpend, hsup, hbond⟩ :=
      submit_batch_ok_state st env sender none st' msgs h
    exact ⟨ht, by rw [hprev, alookup_ainsert_self], hpend, hsup, hbond⟩

/-- A concrete pre-state for exercising `submit_batch` (spec scenario 3:
100000 shares queued at supply 1000000 and bonded 1025000). -/
def exSubmitState : HubState :=
  { exState with
    epoch_period := 3
    unbond_period := 21
    stake_token := { utoken := "utoken", denom := "ustake",
                     total_supply := 1000000, total_utoken_bonded := 1025000 }
    pending_batch := { id := 1, ustake_to_burn := 100000, est_unbond_start_time := 50 }
    alliance_delegations := [("alice", 1025000)] }

/-- The post-state `submit_batch` produces from `exSubmitState` at time 60. -/
def exSubmitOut : HubState :=
  { exSubmitState with
    previous_batches := [(1, ⟨1, false, 100000, 102500, 81⟩)]
    pending_batch := { id := 2, ustake_to_burn := 0, est_unbond_start_time := 63 }
    alliance_delegations := [("alice", 922500)]
    stake_token := { utoken := "utoken", denom := "ustake",
                     total_supply := 900000, total_utoken_bonded := 922500 } }

/-- Witness for C1: the early call fails with `SubmitBatchAfter`, and the
timely call stores batch 1 with `utoken_unclaimed = 102500` and end time
`60 + 21`. -/
theorem submit_batch_spec_witness :
    submit_batch exSubmitState ⟨40, [], ["alice"]⟩ "x" none =
      .error (.SubmitBatchAfter 50) ∧
    alookup exSubmitOut.previous_batches 1 = some ⟨1, false, 100000, 102500, 81⟩ :=
  ⟨(submit_batch_spec exSubmitState ⟨40, [], ["alice"]⟩ "x").1 (by decide),
   by
    have h := (submit_batch_spec exSubmitState ⟨60, [], ["alice"]⟩ "x").2 exSubmitOut
      [Msg.undelegateMsg "alice" 102500 "utoken", Msg.burnMsg "ustake" 100000,
       Msg.callbackMsg "check_received_coin"] (by rfl)
    exact h.2.1⟩

--------------------------------------------------------------------------------
-- C5: operator-supplied undelegation split must sum exactly
--------------------------------------------------------------------------------

/-- C5: `submit_batch` with an explicit undelegation list succeeds only if
the caller is the operator and the listed amounts sum exactly to the expected
`utoken_to_unbond = compute_unbond_amount(total_supply, ustake_to_burn,
total_utoken_bonded)`; in particular a timely operator call whose sum is off
by one fails with `SubmitBatchFailure` (the error reverts the transition, so
the state is unchanged). -/
theorem submit_batch_exact_sum (st : HubState) (env : HubEnv) (sender : String)
    (us : List Undelegation) :
    (∀ st' msgs, submit_batch st env sender (some us) = .ok (st', msgs) →
      sender = st.operator ∧ (us.map (·.amount)).sum = expected_unbond st) ∧
    (st.pending_batch.est_unbond_start_time ≤ env.now →
      sender = st.operator →
      ((us.map (·.amount)).sum = expected_unbond st + 1 ∨
        (us.map (·.amount)).sum + 1 = expected_unbond st) →
      submit_batch st env sender (some us) =
        .error (.SubmitBatchFailure ((us.map (·.amount)).sum) (expected_unbond st))) := by
  constructor
  · intro st' msgs h
    simp only [submit_batch] at h
    split at h
    · exact absurd h (by simp)
    · by_cases hop : sender = st.operator
      · by_cases hsum : (us.map (·.amount)).sum =
            compute_unbond_amount st.stake_token.total_supply
              st.pending_batch.ustake_to_burn st.stake_token.total_utoken_bonded
        · exact ⟨hop, hsum⟩
        · rw [if_neg (not_not_intro hop), if_pos hsum] at h
          exact absurd h (by simp)
      · rw [if_pos hop] at h
        exact absurd h (by simp)
  · intro ht hop hdelta
    have hne : (us.map (·.amount)).sum ≠ expected_unbond st := by
      rcases hdelta with h1 | h1
      · rw [h1]; exact Nat.succ_ne_self _
      · intro hc; rw [hc] at h1; exact (Nat.succ_ne_self _) h1
    simp only [expected_unbond] at hne ⊢
    simp only [submit_batch]
    rw [if_neg (Nat.not_lt.mpr ht), if_neg (not_not_intro hop), if_pos hne]

/-- Witness for C5: the operator's exact split `[("alice", 102500)]` succeeds
(establishing the "only if" conditions), and the off-by-one split
`[("alice", 102501)]` fails with `SubmitBatchFailure`. -/
theorem submit_batch_exact_sum_witness :
    ("operator" = exSubmitState.operator ∧
      ((([Undelegation.mk "alice" 102500]).map (·.amount)).sum =
        expected_unbond exSubmitState)) ∧
    submit_batch exSubmitState ⟨60, [], ["alice"]⟩ "operator"
        (some [Undelegation.mk "alice" 102501]) =
      .error (.SubmitBatchFailure 102501 102500) := by
  constructor
  · exact (submit_batch_exact_sum exSubmitState ⟨60, [], ["alice"]⟩ "operator"
      [Undelegation.mk "alice" 102500]).1 exSubmitOut
      [Msg.undelegateMsg "alice" 102500 "utoken", Msg.burnMsg "ustake" 100000,
       Msg.callbackMsg "check_received_coin"] (by rfl)
  · have h := (submit_batch_exact_sum exSubmitState ⟨60, [], ["alice"]⟩ "operator"
      [Undelegation.mk "alice" 102501]).2 (by decide) rfl (by decide)
    simpa using h

--------------------------------------------------------------------------------
-- Folded batch saves
--------------------------------------------------------------------------------

theorem alookup_foldl_ainsert_not_mem (l : List Batch) (s : List (Nat × Batch))
    (k : Nat) (hk : k ∉ l.map (·.id)) :
    alookup (l.foldl (fun s b => ainsert s b.id b) s) k = alookup s k := by
  induction l generalizing s with
  | nil => rfl
  | cons b bs ih =>
    simp only [List.map_cons, List.mem_cons, not_or] at hk
    rw [List.foldl_cons, ih _ hk.2, alookup_ainsert_ne _ _ _ _ hk.1]

theorem alookup_foldl_ainsert_mem (l : List Batch) (s : List (Nat × Batch))
    (b : Batch) (hb : b ∈ l) (hnd : (l.map (·.id)).Nodup) :
    alookup (l.foldl (fun s x => ainsert s x.id x) s) b.id = some b := by
  induction l generalizing s with
  | nil => simp at hb
  | cons x xs ih =>
    simp only [List.map_cons, List.nodup_cons] at hnd
    rcases List.mem_cons.mp hb with h | h
    · subst h
      rw [List.foldl_cons, alookup_foldl_ainsert_not_mem xs _ b.id hnd.1,
        alookup_ainsert_self]
    · rw [List.foldl_cons]
      exact ih _ h hnd.2

/-- A coherent nodup batch store yields nodup batch ids on the reconcilable
sub-list. -/
theorem reconcilable_ids_nodup (st : HubState) (now : Nat)
    (hco : ∀ p ∈ st.previous_batches, p.2.id = p.1)
    (hnd : (st.previous_batches.map (·.1)).Nodup) :
    ((reconcilable_batches st now).map (·.id)).Nodup := by
  have h1 : List.Sublist (reconcilable_batches st now)
      ((st.previous_batches.filter (fun p => p.2.reconciled = false)).map (·.2)) :=
    List.filter_sublist _
  have h2 : List.Sublist
      ((st.previous_batches.filter (fun p => p.2.reconciled = false)).map (·.2))
      (st.previous_batches.map (·.2)) :=
    (List.filter_sublist _).map _
  have h3 : List.Sublist ((reconcilable_batches st now).map (·.id))
      ((st.previous_batches.map (·.2)).map (·.id)) :=
    (h1.trans h2).map _
  refine h3.nodup ?_
  rw [List.map_map]
  have h4 : st.previous_batches.map ((·.id) ∘ (·.2)) = st.previous_batches.map (·.1) :=
    List.map_congr_left (fun p hp => hco p hp)
  rw [h4]
  exact hnd

--------------------------------------------------------------------------------
-- C2: reconcile with sufficient balance marks matured batches untouched
--------------------------------------------------------------------------------

/-- A batch store holding one batch at the maturity boundary
(`now = est_unbond_end_time`). -/
def cexReconcileState : HubState :=
  { exState with previous_batches := [(1, ⟨1, false, 10, 5, 100⟩)] }

/-- The environment with block time at the boundary and ample balance. -/
def cexReconcileEnv : HubEnv := ⟨100, [⟨"utoken", 1000⟩], ["alice"]⟩

/-- C2 counterexample: a batch with `now = est_unbond_end_time` is matured by
the spec's definition (`now ≥ est_unbond_end_time`), is unreconciled, and the
bank balance covers its `utoken_unclaimed` plus the unlocked amount — yet
`reconcile` returns the state unchanged (the source filters with the strict
`current_time > est_unbond_end_time` and then returns early on a zero
expected sum), so the batch does not end reconciled. -/
theorem reconcile_boundary_counterexample :
    (Batch.mk 1 false 10 5 100).est_unbond_end_time ≤ cexReconcileEnv.now ∧
    alookup cexReconcileState.previous_batches 1 = some ⟨1, false, 10, 5, 100⟩ ∧
    (Batch.mk 1 false 10 5 100).utoken_unclaimed +
        coinsFind cexReconcileState.unlocked_coins cexReconcileState.stake_token.utoken ≤
      bankBalance cexReconcileEnv cexReconcileState.stake_token.utoken ∧
    reconcile cexReconcileState cexReconcileEnv = .ok (cexReconcileState, []) :=
  ⟨by decide, by decide, by decide, rfl⟩

/-- C2 (amended): let `M` be the unreconciled previous batches with
`now > est_unbond_end_time` (the source's strict maturity filter).  Provided
`M`'s total `utoken_unclaimed` is nonzero (the source returns early, marking
nothing, when it is zero) and the contract's `utoken` bank balance is at
least that total plus the unlocked `utoken` amount, `reconcile` succeeds and
every batch in `M` ends reconciled with its `utoken_unclaimed` unchanged
(zero deduction). -/
theorem reconcile_no_deficit_spec (st : HubState) (env : HubEnv)
    (hco : ∀ p ∈ st.previous_batches, p.2.id = p.1)
    (hnd : (st.previous_batches.map (·.1)).Nodup)
    (hsum : ((reconcilable_batches st env.now).map (·.utoken_unclaimed)).sum ≠ 0)
    (hbal : ((reconcilable_batches st env.now).map (·.utoken_unclaimed)).sum +
        coinsFind st.unlocked_coins st.stake_token.utoken ≤
      bankBalance env st.stake_token.utoken) :
    ∃ st', reconcile st env = .ok (st', []) ∧
      ∀ b ∈ reconcilable_batches st env.now,
        alookup st'.previous_batches b.id = some { b with reconciled := true } := by
  have hM := reconcilable_ids_nodup st env.now hco hnd
  refine
    ⟨{ st with
        previous_batches :=
          (mark_reconciled_batches (reconcilable_batches st env.now)).foldl
            (fun s b => ainsert s b.id b) st.previous_batches },
      ?_, ?_⟩
  · simp only [reconcile]
    rw [if_neg hsum, if_pos hbal]
  · intro b hb
    have hb' : ({ b with reconciled := true } : Batch) ∈
        mark_reconciled_batches (reconcilable_batches st env.now) :=
      List.mem_map.mpr ⟨b, hb, rfl⟩
    have hnd' : ((mark_reconciled_batches (reconcilable_batches st env.now)).map
        (·.id)).Nodup := by
      unfold mark_reconciled_batches
      rw [List.map_map]
      simpa using hM
    have h := alookup_foldl_ainsert_mem _ st.previous_batches _ hb' hnd'
    simpa using h

/-- Witness for C2's amended claim: one strictly matured batch, a covering
bank balance, and the batch ends reconciled. -/
theorem reconcile_no_deficit_witness :
    ∃ st', reconcile cexReconcileState ⟨101, [⟨"utoken", 1000⟩], ["alice"]⟩ =
        .ok (st', []) ∧
      ∀ b ∈ reconcilable_batches cexReconcileState 101,
        alookup st'.previous_batches b.id = some { b with reconciled := true } :=
  reconcile_no_deficit_spec cexReconcileState ⟨101, [⟨"utoken", 1000⟩], ["alice"]⟩
    (by decide) (by decide) (by decide) (by decide)

--------------------------------------------------------------------------------
-- C7: Gauges/Defined bond targeting
--------------------------------------------------------------------------------

/-- Invariant of the Gauges/Defined selection fold: starting from a selected
delegation `d` whose strict predecessors `p` all have smaller diffs and whose
already-processed successors `mid` have diffs at most `d`'s, the fold over
the remaining list returns the first delegation attaining the maximal
diff. -/
theorem gauge_fold_aux (map : List (String × Nat)) (l : List Delegation) :
    ∀ (p mid : List Delegation) (d : Delegation),
      (∀ x ∈ p, gauge_diff map x < gauge_diff map d) →
      (∀ x ∈ mid, gauge_diff map x ≤ gauge_diff map d) →
      ∃ p' d' q', p ++ d :: (mid ++ l) = p' ++ d' :: q' ∧
        l.foldl (gauge_step map) (some d.validator, gauge_diff map d) =
          (some d'.validator, gauge_diff map d') ∧
        (∀ x ∈ p', gauge_diff map x < gauge_diff map d') ∧
        (∀ x ∈ p ++ d :: (mid ++ l), gauge_diff map x ≤ gauge_diff map d') := by
  induction l with
  | nil =>
    intro p mid d hp hmid
    refine ⟨p, d, mid, by simp, rfl, hp, ?_⟩
    intro x hx
    simp only [List.append_nil, List.mem_append, List.mem_cons] at hx
    rcases hx with h | h | h
    · exact le_of_lt (hp x h)
    · exact le_of_eq (by rw [h])
    · exact hmid x h
  | cons e l ih =>
    intro p mid d hp hmid
    by_cases he : gauge_diff map e > gauge_diff map d
    · have hstep : gauge_step map (some d.validator, gauge_diff map d) e =
          (some e.validator, gauge_diff map e) := by
        simp [gauge_step, he]
      have hp' : ∀ x ∈ p ++ d :: mid, gauge_diff map x < gauge_diff map e := by
        intro x hx
        simp only [List.mem_append, List.mem_cons] at hx
        rcases hx with h | h | h
        · exact lt_trans (hp x h) he
        · rw [h]; exact he
        · exact lt_of_le_of_lt (hmid x h) he
      obtain ⟨p', d', q', heq, hfold, hP, hAll⟩ :=
        ih (p ++ d :: mid) [] e hp' (by simp)
      refine ⟨p', d', q', ?_, ?_, hP, ?_⟩
      · rw [show p ++ d :: (mid ++ e :: l) = (p ++ d :: mid) ++ e :: ([] ++ l) by simp]
        exact heq
      · rw [List.foldl_cons, hstep]
        exact hfold
      · intro x hx
        refine hAll x ?_
        simp only [List.mem_append, List.mem_cons, List.nil_append] at hx ⊢
        tauto
    · have hstep : gauge_step map (some d.validator, gauge_diff map d) e =
          (some d.validator, gauge_diff map d) := by
        simp [gauge_step, he]
      have hmid' : ∀ x ∈ mid ++ [e], gauge_diff map x ≤ gauge_diff map d := by
        intro x hx
        simp only [List.mem_append, List.mem_singleton] at hx
        rcases hx with h | h
        · exact hmid x h
        · rw [h]; exact Nat.le_of_not_lt he
      obtain ⟨p', d', q', heq, hfold, hP, hAll⟩ := ih p (mid ++ [e]) d hp hmid'
      refine ⟨p', d', q', ?_, ?_, hP, ?_⟩
      · rw [show p ++ d :: (mid ++ e :: l) = p ++ d :: ((mid ++ [e]) ++ l) by simp]
        exact heq
      · rw [List.foldl_cons, hstep]
        exact hfold
      · intro x hx
        refine hAll x ?_
        simp only [List.mem_append, List.mem_cons, List.mem_singleton] at hx ⊢
        tauto

/-- The Gauges/Defined selection fold over a nonempty delegation list picks
the first delegation with the maximal saturated diff. -/
theorem gauge_select_spec (map : List (String × Nat)) (c : List Delegation)
    (hc : c ≠ []) :
    ∃ p d q, c = p ++ d :: q ∧
      c.foldl (gauge_step map) (none, 0) = (some d.validator, gauge_diff map d) ∧
      (∀ x ∈ p, gauge_diff map x < gauge_diff map d) ∧
      (∀ x ∈ c, gauge_diff map x ≤ gauge_diff map d) := by
  match c, hc with
  | d0 :: rest, _ =>
    have hfirst : gauge_step map (none, 0) d0 =
        (some d0.validator, gauge_diff map d0) := by
      simp [gauge_step]
    obtain ⟨p', d', q', heq, hfold, hP, hAll⟩ :=
      gauge_fold_aux map rest [] [] d0 (by simp) (by simp)
    refine ⟨p', d', q', by simpa using heq, ?_, hP, ?_⟩
    · rw [List.foldl_cons, hfirst]
      exact hfold
    · intro x hx
      refine hAll x ?_
      simpa using hx

/-- C7: under a Gauges or Defined strategy with basis-point shares `bps`,
whenever there are current delegations, `find_new_delegation` assigns the
full deposit to the first currently delegated validator maximising
`diff = wanted[v] − current[v]` saturated at `0` (with
`wanted = get_utoken_per_validator(total_staked + deposit, bps)`), earlier
delegations all having strictly smaller diffs and no delegation having a
larger one; with no current delegations it returns the first whitelisted
validator with the full deposit. -/
theorem find_new_delegation_spec (bps : List (String × Nat))
    (validators : List String) (ledger : List (String × Nat)) (amt : Nat)
    (strat : DelegationStrategy)
    (hstrat : strat = .gauges bps ∨ strat = .defined bps) :
    (ledger ≠ [] →
      ∃ p d q, query_all_delegations ledger = p ++ d :: q ∧
        find_new_delegation strat validators ledger amt = .ok ⟨d.validator, amt⟩ ∧
        (∀ x ∈ p,
          gauge_diff (get_utoken_per_validator
            (((query_all_delegations ledger).map (·.amount)).sum + amt) bps) x <
          gauge_diff (get_utoken_per_validator
            (((query_all_delegations ledger).map (·.amount)).sum + amt) bps) d) ∧
        (∀ x ∈ query_all_delegations ledger,
          gauge_diff (get_utoken_per_validator
            (((query_all_delegations ledger).map (·.amount)).sum + amt) bps) x ≤
          gauge_diff (get_utoken_per_validator
            (((query_all_delegations ledger).map (·.amount)).sum + amt) bps) d)) ∧
    (ledger = [] → ∀ v vs, validators = v :: vs →
      find_new_delegation strat validators ledger amt = .ok ⟨v, amt⟩) := by
  have core :
      (ledger ≠ [] →
        ∃ p d q, query_all_delegations ledger = p ++ d :: q ∧
          find_new_delegation (.defined bps) validators ledger amt =
            .ok ⟨d.validator, amt⟩ ∧
          (∀ x ∈ p,
            gauge_diff (get_utoken_per_validator
              (((query_all_delegations ledger).map (·.amount)).sum + amt) bps) x <
            gauge_diff (get_utoken_per_validator
              (((query_all_delegations ledger).map (·.amount)).sum + amt) bps) d) ∧
          (∀ x ∈ query_all_delegations ledger,
            gauge_diff (get_utoken_per_validator
              (((query_all_delegations ledger).map (·.amount)).sum + amt) bps) x ≤
            gauge_diff (get_utoken_per_validator
              (((query_all_delegations ledger).map (·.amount)).sum + amt) bps) d)) ∧
      (ledger = [] → ∀ v vs, validators = v :: vs →
        find_new_delegation (.defined bps) validators ledger amt = .ok ⟨v, amt⟩) := by
    constructor
    · intro hne
      have hcne : query_all_delegations ledger ≠ [] := by
        simp only [query_all_delegations]
        simpa using hne
      obtain ⟨p, d, q, heq, hfold, hP, hAll⟩ :=
        gauge_select_spec
          (get_utoken_per_validator
            (((query_all_delegations ledger).map (·.amount)).sum + amt) bps)
          (query_all_delegations ledger) hcne
      refine ⟨p, d, q, heq, ?_, hP, hAll⟩
      simp only [find_new_delegation]
      rw [hfold]
    · intro hl v vs hv
      subst hl
      subst hv
      rfl
  rcases hstrat with rfl | rfl
  · exact core
  · exact core

/-- Witness for C7 (the spec's scenario 2): shares 60/40, current
delegations alice 600000 / bob 400000, deposit 12043 — alice is selected
with the full deposit; and the empty-ledger case returns the first
whitelisted validator. -/
theorem find_new_delegation_spec_witness :
    (∃ p d q,
      query_all_delegations [("alice", 600000), ("bob", 400000)] = p ++ d :: q ∧
      find_new_delegation (.defined [("alice", 6000), ("bob", 4000)])
        ["alice", "bob", "charlie"] [("alice", 600000), ("bob", 400000)] 12043 =
        .ok ⟨d.validator, 12043⟩ ∧
      (∀ x ∈ p,
        gauge_diff (get_utoken_per_validator
          (((query_all_delegations [("alice", 600000), ("bob", 400000)]).map
            (·.amount)).sum + 12043) [("alice", 6000), ("bob", 4000)]) x <
        gauge_diff (get_utoken_per_validator
          (((query_all_delegations [("alice", 600000), ("bob", 400000)]).map
            (·.amount)).sum + 12043) [("alice", 6000), ("bob", 4000)]) d) ∧
      (∀ x ∈ query_all_delegations [("alice", 600000), ("bob", 400000)],
        gauge_diff (get_utoken_per_validator
          (((query_all_delegations [("alice", 600000), ("bob", 400000)]).map
            (·.amount)).sum + 12043) [("alice", 6000), ("bob", 4000)]) x ≤
        gauge_diff (get_utoken_per_validator
          (((query_all_delegations [("alice", 600000), ("bob", 400000)]).map
            (·.amount)).sum + 12043) [("alice", 6000), ("bob", 4000)]) d)) ∧
    find_new_delegation (.defined [("alice", 6000), ("bob", 4000)])
      ["alice", "bob", "charlie"] [] 500 = .ok ⟨"alice", 500⟩ :=
  ⟨(find_new_delegation_spec [("alice", 6000), ("bob", 4000)]
      ["alice", "bob", "charlie"] [("alice", 600000), ("bob", 400000)] 12043
      _ (Or.inr rfl)).1 (by decide),
   (find_new_delegation_spec [("alice", 6000), ("bob", 4000)]
      ["alice", "bob", "charlie"] [] 500 _ (Or.inr rfl)).2 rfl "alice"
      ["bob", "charlie"] rfl⟩

--------------------------------------------------------------------------------
-- The reinvest loop invariant (shared by C8 and C10)
--------------------------------------------------------------------------------

theorem decimal_mul_uint_zero (a : Nat) : decimal_mul_uint 0 a = 0 := by
  simp [decimal_mul_uint]

theorem reinvest_loop_ok (strat : DelegationStrategy) (validators : List String)
    (feec : String) (prf : Nat) (coins : List Coin) :
    ∀ stake ledger msgs stake' ledger' msgs',
      reinvest_loop strat validators feec prf coins (stake, ledger, msgs) =
        .ok (stake', ledger', msgs') →
      stake'.utoken = stake.utoken ∧
      stake'.denom = stake.denom ∧
      stake'.total_utoken_bonded = stake.total_utoken_bonded +
        ((coins.filter (fun c => c.denom = stake.utoken)).map
          (fun c => c.amount - decimal_mul_uint prf c.amount)).sum ∧
      stake'.total_supply +
        ((coins.filter (fun c => ¬ c.denom = stake.utoken ∧ c.denom = stake.denom)).map
          (fun c => c.amount - decimal_mul_uint prf c.amount)).sum =
        stake.total_supply ∧
      (∀ m ∈ msgs, m ∈ msgs') ∧
      (∀ c ∈ coins,
        (c.denom = stake.utoken ∨ (¬ c.denom = stake.utoken ∧ c.denom = stake.denom)) →
        decimal_mul_uint prf c.amount ≠ 0 →
        Msg.feeTransferMsg feec (decimal_mul_uint prf c.amount) c.denom ∈ msgs') ∧
      (prf = 0 → ∀ r a dn, Msg.feeTransferMsg r a dn ∈ msgs' →
        Msg.feeTransferMsg r a dn ∈ msgs) := by
  induction coins with
  | nil =>
    intro stake ledger msgs stake' ledger' msgs' h
    simp only [reinvest_loop, Except.ok.injEq, Prod.mk.injEq] at h
    obtain ⟨h1, h2, h3⟩ := h
    subst h1; subst h2; subst h3
    simp
  | cons c cs ih =>
    intro stake ledger msgs stake' ledger' msgs' h
    simp only [reinvest_loop] at h
    split at h
    · exact (Except.noConfusion h : False).elim
    · rename_i acc' hstep
      obtain ⟨stake1, ledger1, msgs1⟩ := acc'
      simp only [reinvest_step] at hstep
      by_cases hu : c.denom = stake.utoken
      · rw [if_pos hu] at hstep
        split at hstep
        · exact (Except.noConfusion hstep : False).elim
        · rename_i nd hnd
          simp only [Except.ok.injEq, Prod.mk.injEq] at hstep
          obtain ⟨hs1, hl1, hm1⟩ := hstep
          subst hs1; subst hl1; subst hm1
          obtain ⟨hut, hden, hbond, hsup, hmono, hfees, hnofee⟩ :=
            ih _ _ _ _ _ _ h
          dsimp only at hut hden hbond hsup hmono hfees hnofee
          have hmem1 : ∀ m ∈ msgs,
              m ∈ (if decimal_mul_uint prf c.amount ≠ 0 then
                (msgs ++ [Msg.delegateMsg nd.validator nd.amount stake.utoken]) ++
                  [Msg.feeTransferMsg feec (decimal_mul_uint prf c.amount) c.denom]
              else msgs ++ [Msg.delegateMsg nd.validator nd.amount stake.utoken]) := by
            intro m hm
            split <;> simp [hm]
          refine ⟨hut, hden, ?_, ?_, fun m hm => hmono m (hmem1 m hm), ?_, ?_⟩
          · have hfc : (c :: cs).filter (fun x => x.denom = stake.utoken) =
                c :: cs.filter (fun x => x.denom = stake.utoken) := by
              simp [List.filter_cons, hu]
            rw [hfc, List.map_cons, List.sum_cons]
            omega
          · have hfc : (c :: cs).filter
                (fun x => ¬ x.denom = stake.utoken ∧ x.denom = stake.denom) =
                cs.filter (fun x => ¬ x.denom = stake.utoken ∧ x.denom = stake.denom) := by
              simp [List.filter_cons, hu]
            rw [hfc]
            omega
          · intro x hx hcond hfee
            rcases List.mem_cons.mp hx with hxc | hxcs
            · subst hxc
              refine hmono _ ?_
              rw [if_pos hfee]
              simp
            · exact hfees x hxcs hcond hfee
          · intro hprf r a dn hmem
            have h1 := hnofee hprf r a dn hmem
            rw [if_neg (by simp [hprf, decimal_mul_uint_zero])] at h1
            rcases List.mem_append.mp h1 with h2 | h2
            · exact h2
            · simp at h2
      · rw [if_neg hu] at hstep
        by_cases hd : c.denom = stake.denom
        · rw [if_pos hd] at hstep
          simp only [checked_sub] at hstep
          split at hstep
          · exact (Except.noConfusion hstep : False).elim
          · rename_i ns hsub
            split at hsub
            · exact (Except.noConfusion hsub : False).elim
            · rename_i hlt
              simp only [Except.ok.injEq] at hsub
              subst hsub
              simp only [Except.ok.injEq, Prod.mk.injEq] at hstep
              obtain ⟨hs1, hl1, hm1⟩ := hstep
              subst hs1; subst hl1; subst hm1
              obtain ⟨hut, hden, hbond, hsup, hmono, hfees, hnofee⟩ :=
                ih _ _ _ _ _ _ h
              dsimp only at hut hden hbond hsup hmono hfees hnofee
              have hmem1 : ∀ m ∈ msgs,
                  m ∈ (if decimal_mul_uint prf c.amount ≠ 0 then
                    (msgs ++ [Msg.burnMsg stake.denom
                      (c.amount - decimal_mul_uint prf c.amount)]) ++
                      [Msg.feeTransferMsg feec (decimal_mul_uint prf c.amount) c.denom]
                  else msgs ++ [Msg.burnMsg stake.denom
                    (c.amount - decimal_mul_uint prf c.amount)]) := by
                intro m hm
                split <;> simp [hm]
              refine ⟨hut, hden, ?_, ?_, fun m hm => hmono m (hmem1 m hm), ?_, ?_⟩
              · have hfc : (c :: cs).filter (fun x => x.denom = stake.utoken) =
                    cs.filter (fun x => x.denom = stake.utoken) := by
                  rw [List.filter_cons_of_neg (by simpa using hu)]
                rw [hfc]
                omega
              · have hfc : (c :: cs).filter
                    (fun x => ¬ x.denom = stake.utoken ∧ x.denom = stake.denom) =
                    c :: cs.filter
                      (fun x => ¬ x.denom = stake.utoken ∧ x.denom = stake.denom) := by
                  rw [List.filter_cons_of_pos (by simpa using ⟨hu, hd⟩)]
                rw [hfc, List.map_cons, List.sum_cons]
                omega
              · intro x hx hcond hfee
                rcases List.mem_cons.mp hx with hxc | hxcs
                · subst hxc
                  refine hmono _ ?_
                  rw [if_pos hfee]
                  simp
                · exact hfees x hxcs hcond hfee
              · intro hprf r a dn hmem
                have h1 := hnofee hprf r a dn hmem
                rw [if_neg (by simp [hprf, decimal_mul_uint_zero])] at h1
                rcases List.mem_append.mp h1 with h2 | h2
                · exact h2
                · simp at h2
        · rw [if_neg hd] at hstep
          simp only [Except.ok.injEq, Prod.mk.injEq] at hstep
          obtain ⟨hs1, hl1, hm1⟩ := hstep
          subst hs1; subst hl1; subst hm1
          obtain ⟨hut, hden, hbond, hsup, hmono, hfees, hnofee⟩ :=
            ih _ _ _ _ _ _ h
          have hfc1 : (c :: cs).filter (fun x => x.denom = stake.utoken) =
              cs.filter (fun x => x.denom = stake.utoken) := by
            simp [List.filter_cons, hu]
          have hfc2 : (c :: cs).filter
              (fun x => ¬ x.denom = stake.utoken ∧ x.denom = stake.denom) =
              cs.filter (fun x => ¬ x.denom = stake.utoken ∧ x.denom = stake.denom) := by
            rw [List.filter_cons_of_neg (by simp [hu, hd])]
          refine ⟨hut, hden, by rw [hfc1]; omega, by rw [hfc2]; omega, hmono, ?_,
            hnofee⟩
          intro x hx hcond hfee
          rcases List.mem_cons.mp hx with hxc | hxcs
          · subst hxc
            rcases hcond with h1 | h1
            · exact absurd h1 hu
            · exact absurd h1.2 hd
          · exact hfees x hxcs hcond hfee

/-- Inversion of a successful `reinvest`: the state written back is the loop
result together with the retained unlocked coins and the recorded exchange
rate. -/
theorem reinvest_ok_inv (st : HubState) (env : HubEnv) (skip_fee : Bool)
    (st' : HubState) (msgs : List Msg)
    (h : reinvest st env skip_fee = .ok (st', msgs)) :
    ∃ stake' ledger',
      reinvest_loop st.delegation_strategy env.validators
        st.fee_config.protocol_fee_contract
        (if skip_fee then 0 else st.fee_config.protocol_reward_fee)
        st.unlocked_coins (st.stake_token, st.alliance_delegations, []) =
        .ok (stake', ledger', msgs) ∧
      st' = { st with
        stake_token := stake'
        alliance_delegations := ledger'
        unlocked_coins := st.unlocked_coins.filter
          (fun c => ¬ c.denom = stake'.utoken ∧ ¬ c.denom = stake'.denom)
        exchange_history := ainsert st.exchange_history env.now
          (calc_current_exchange_rate stake') } := by
  simp only [reinvest] at h
  split at h
  · exact (Except.noConfusion h : False).elim
  · split at h
    · exact (Except.noConfusion h : False).elim
    · rename_i stake' ledger' msgsl hloop
      simp only [Except.ok.injEq, Prod.mk.injEq] at h
      obtain ⟨hst, hmsgs⟩ := h
      subst hmsgs
      exact ⟨stake', ledger', hloop, hst.symm⟩

--------------------------------------------------------------------------------
-- C8: reinvest with the configured fee
--------------------------------------------------------------------------------

/-- C8: `reinvest` (with the fee applied, `skip_fee = false`) fails with
`NoTokensAvailable` on an empty `unlocked_coins` (the error reverts, leaving
the state unchanged); on success it increases `total_utoken_bonded` by the
fee-net remainder of every `utoken` entry, decreases `total_supply` by the
fee-net remainder of every stake-denom entry, retains exactly the entries of
other denoms in `unlocked_coins`, records the post-state exchange rate
(`total_utoken_bonded / total_supply`, `1` when the supply is zero) at the
block time, and queues a fee transfer of `floor(fee · amount)` for every
converted entry with a nonzero fee. -/
theorem reinvest_spec (st : HubState) (env : HubEnv)
    (hdenom : st.stake_token.utoken ≠ st.stake_token.denom) :
    (st.unlocked_coins = [] → reinvest st env false = .error .NoTokensAvailable) ∧
    (∀ st' msgs, reinvest st env false = .ok (st', msgs) →
      st'.stake_token.total_utoken_bonded = st.stake_token.total_utoken_bonded +
        ((st.unlocked_coins.filter (fun c => c.denom = st.stake_token.utoken)).map
          (fun c => c.amount -
            decimal_mul_uint st.fee_config.protocol_reward_fee c.amount)).sum ∧
      st'.stake_token.total_supply +
        ((st.unlocked_coins.filter (fun c => c.denom = st.stake_token.denom)).map
          (fun c => c.amount -
            decimal_mul_uint st.fee_config.protocol_reward_fee c.amount)).sum =
        st.stake_token.total_supply ∧
      st'.unlocked_coins = st.unlocked_coins.filter
        (fun c => ¬ c.denom = st.stake_token.utoken ∧
          ¬ c.denom = st.stake_token.denom) ∧
      alookup st'.exchange_history env.now =
        some (calc_current_exchange_rate st'.stake_token) ∧
      (∀ c ∈ st.unlocked_coins,
        (c.denom = st.stake_token.utoken ∨ c.denom = st.stake_token.denom) →
        decimal_mul_uint st.fee_config.protocol_reward_fee c.amount ≠ 0 →
        Msg.feeTransferMsg st.fee_config.protocol_fee_contract
          (decimal_mul_uint st.fee_config.protocol_reward_fee c.amount) c.denom ∈
          msgs)) := by
  have hfeq : st.unlocked_coins.filter
      (fun c => ¬ c.denom = st.stake_token.utoken ∧
        c.denom = st.stake_token.denom) =
      st.unlocked_coins.filter (fun c => c.denom = st.stake_token.denom) := by
    refine List.filter_congr ?_
    intro c _
    by_cases h : c.denom = st.stake_token.denom
    · have hcu : ¬ c.denom = st.stake_token.utoken :=
        fun hc' => hdenom (hc'.symm.trans h)
      simp [h, hcu, Ne.symm hdenom]
    · simp [h]
  constructor
  · intro hl
    rw [reinvest, if_pos (by simp [hl])]
  · intro st' msgs h
    obtain ⟨stake', ledger', hloop, hst⟩ := reinvest_ok_inv st env false st' msgs h
    have hloop' : reinvest_loop st.delegation_strategy env.validators
        st.fee_config.protocol_fee_contract st.fee_config.protocol_reward_fee
        st.unlocked_coins (st.stake_token, st.alliance_delegations, []) =
        .ok (stake', ledger', msgs) := hloop
    obtain ⟨hut, hden, hbond, hsup, hmono, hfees, hnofee⟩ :=
      reinvest_loop_ok st.delegation_strategy env.validators
        st.fee_config.protocol_fee_contract st.fee_config.protocol_reward_fee
        st.unlocked_coins st.stake_token st.alliance_delegations [] stake'
        ledger' msgs hloop'
    refine ⟨?_, ?_, ?_, ?_, ?_⟩
    · rw [hst]
      exact hbond
    · rw [hst, ← hfeq]
      exact hsup
    · rw [hst, hut, hden]
    · rw [hst]
      exact alookup_ainsert_self _ _ _
    · intro c hc hcond hfee
      refine hfees c hc ?_ hfee
      rcases hcond with h1 | h1
      · exact Or.inl h1
      · by_cases h2 : c.denom = st.stake_token.utoken
        · exact Or.inl h2
        · exact Or.inr ⟨h2, h1⟩

/-- A concrete unlocked-coin list: a `utoken` entry, a stake-denom entry and
a foreign entry, under a 1% protocol fee. -/
def exReinvestState : HubState :=
  { exSubmitState with
    unlocked_coins := [⟨"utoken", 100⟩, ⟨"ustake", 50⟩, ⟨"other", 7⟩] }

/-- The state `reinvest` produces from `exReinvestState` with the fee
applied. -/
def exReinvestOut : HubState :=
  { exReinvestState with
    stake_token := { utoken := "utoken", denom := "ustake",
                     total_supply := 999950, total_utoken_bonded := 1025099 }
    alliance_delegations := [("alice", 1025099)]
    unlocked_coins := [⟨"other", 7⟩]
    exchange_history := [(99, 1025150257512875643)] }

/-- The messages `reinvest` queues from `exReinvestState` with the fee
applied. -/
def exReinvestMsgs : List Msg :=
  [Msg.delegateMsg "alice" 99 "utoken", Msg.feeTransferMsg "fee" 1 "utoken",
   Msg.burnMsg "ustake" 50]

/-- Witness for C8: the empty-list failure, the bonded-total increase by the
fee-net utoken amount, and the queued fee transfer, at a concrete input. -/
theorem reinvest_spec_witness :
    reinvest { exReinvestState with unlocked_coins := [] } ⟨99, [], ["alice"]⟩
      false = .error .NoTokensAvailable ∧
    exReinvestOut.stake_token.total_utoken_bonded =
      exReinvestState.stake_token.total_utoken_bonded +
      ((exReinvestState.unlocked_coins.filter
        (fun c => c.denom = exReinvestState.stake_token.utoken)).map
        (fun c => c.amount - decimal_mul_uint
          exReinvestState.fee_config.protocol_reward_fee c.amount)).sum ∧
    Msg.feeTransferMsg "fee" 1 "utoken" ∈ exReinvestMsgs :=
  ⟨(reinvest_spec { exReinvestState with unlocked_coins := [] }
      ⟨99, [], ["alice"]⟩ (by decide)).1 rfl,
   ((reinvest_spec exReinvestState ⟨99, [], ["alice"]⟩ (by decide)).2
      exReinvestOut exReinvestMsgs (by rfl)).1,
   ((reinvest_spec exReinvestState ⟨99, [], ["alice"]⟩ (by decide)).2
      exReinvestOut exReinvestMsgs (by rfl)).2.2.2.2 ⟨"utoken", 100⟩ (by decide)
      (Or.inl rfl) (by decide)⟩

--------------------------------------------------------------------------------
-- C10: reinvest with skip_fee = true takes no fee
--------------------------------------------------------------------------------

/-- C10: a successful `reinvest` with `skip_fee = true` applies a zero
protocol fee: no fee-transfer message is queued, `total_utoken_bonded`
increases by the full amount of every `utoken` entry and `total_supply`
decreases by the full amount of every stake-denom entry. -/
theorem reinvest_skip_fee_spec (st : HubState) (env : HubEnv)
    (hdenom : st.stake_token.utoken ≠ st.stake_token.denom) :
    ∀ st' msgs, reinvest st env true = .ok (st', msgs) →
      (∀ r a dn, Msg.feeTransferMsg r a dn ∉ msgs) ∧
      st'.stake_token.total_utoken_bonded = st.stake_token.total_utoken_bonded +
        ((st.unlocked_coins.filter
          (fun c => c.denom = st.stake_token.utoken)).map (·.amount)).sum ∧
      st'.stake_token.total_supply +
        ((st.unlocked_coins.filter
          (fun c => c.denom = st.stake_token.denom)).map (·.amount)).sum =
        st.stake_token.total_supply := by
  have hfeq : st.unlocked_coins.filter
      (fun c => ¬ c.denom = st.stake_token.utoken ∧
        c.denom = st.stake_token.denom) =
      st.unlocked_coins.filter (fun c => c.denom = st.stake_token.denom) := by
    refine List.filter_congr ?_
    intro c _
    by_cases h : c.denom = st.stake_token.denom
    · have hcu : ¬ c.denom = st.stake_token.utoken :=
        fun hc' => hdenom (hc'.symm.trans h)
      simp [h, hcu, Ne.symm hdenom]
    · simp [h]
  intro st' msgs h
  obtain ⟨stake', ledger', hloop, hst⟩ := reinvest_ok_inv st env true st' msgs h
  have hloop' : reinvest_loop st.delegation_strategy env.validators
      st.fee_config.protocol_fee_contract 0
      st.unlocked_coins (st.stake_token, st.alliance_delegations, []) =
      .ok (stake', ledger', msgs) := hloop
  obtain ⟨hut, hden, hbond, hsup, hmono, hfees, hnofee⟩ :=
    reinvest_loop_ok st.delegation_strategy env.validators
      st.fee_config.protocol_fee_contract 0
      st.unlocked_coins st.stake_token st.alliance_delegations [] stake'
      ledger' msgs hloop'
  have hmap : ∀ l : List Coin,
      l.map (fun c => c.amount - decimal_mul_uint 0 c.amount) = l.map (·.amount) := by
    intro l
    refine List.map_congr_left ?_
    intro c _
    rw [decimal_mul_uint_zero, Nat.sub_zero]
  refine ⟨?_, ?_, ?_⟩
  · intro r a dn hmem
    simpa using hnofee rfl r a dn hmem
  · rw [hst]
    rw [hmap] at hbond
    exact hbond
  · rw [hst, ← hfeq]
    rw [hmap] at hsup
    exact hsup

/-- The state `reinvest` produces from `exReinvestState` with
`skip_fee = true`. -/
def exReinvestOutSkip : HubState :=
  { exReinvestState with
    stake_token := { utoken := "utoken", denom := "ustake",
                     total_supply := 999950, total_utoken_bonded := 1025100 }
    alliance_delegations := [("alice", 1025100)]
    unlocked_coins := [⟨"other", 7⟩]
    exchange_history := [(99, 1025151257562878143)] }

/-- The messages `reinvest` queues from `exReinvestState` with
`skip_fee = true`: no fee transfer. -/
def exReinvestSkipMsgs : List Msg :=
  [Msg.delegateMsg "alice" 100 "utoken", Msg.burnMsg "ustake" 50]

/-- Witness for C10 at a concrete input: no fee-transfer message, the full
100 utoken bonded and the full 50 shares burned. -/
theorem reinvest_skip_fee_spec_witness :
    (∀ r a dn, Msg.feeTransferMsg r a dn ∉ exReinvestSkipMsgs) ∧
    exReinvestOutSkip.stake_token.total_utoken_bonded =
      exReinvestState.stake_token.total_utoken_bonded +
      ((exReinvestState.unlocked_coins.filter
        (fun c => c.denom = exReinvestState.stake_token.utoken)).map
        (·.amount)).sum ∧
    exReinvestOutSkip.stake_token.total_supply +
      ((exReinvestState.unlocked_coins.filter
        (fun c => c.denom = exReinvestState.stake_token.denom)).map
        (·.amount)).sum = exReinvestState.stake_token.total_supply :=
  reinvest_skip_fee_spec exReinvestState ⟨99, [], ["alice"]⟩ (by decide)
    exReinvestOutSkip exReinvestSkipMsgs (by rfl)

--------------------------------------------------------------------------------
-- C3: withdraw_unbonded — counterexample and loop infrastructure
--------------------------------------------------------------------------------

/-- A reconciled batch at the maturity boundary with one pending request. -/
def cexWithdrawState : HubState :=
  { exState with
    previous_batches := [(1, ⟨1, true, 10, 50, 100⟩)]
    unbond_requests := [((1, "bob"), ⟨1, "bob", 10⟩)] }

/-- C3 counterexample: a request whose batch is reconciled with
`now = est_unbond_end_time` (matured per the claim's `now ≥ ...`) is NOT paid
out: the source requires the strict `est_unbond_end_time < current_time`, so
the request is skipped, the total refund is zero and the whole call fails
with `CantBeZero` — no request is removed and no batch is touched. -/
theorem withdraw_boundary_counterexample :
    alookup cexWithdrawState.previous_batches 1 = some ⟨1, true, 10, 50, 100⟩ ∧
    (Batch.mk 1 true 10 50 100).est_unbond_end_time ≤ (100 : Nat) ∧
    alookup cexWithdrawState.unbond_requests (1, "bob") = some ⟨1, "bob", 10⟩ ∧
    withdraw_unbonded cexWithdrawState ⟨100, [], ["alice"]⟩ "bob" "bob" =
      .error (.CantBeZero "withdrawable amount") :=
  ⟨by decide, by decide, by decide, rfl⟩

/-- Coherence of a batch store: every entry's batch carries its own key. -/
def batches_coherent (m : List (Nat × Batch)) : Prop :=
  ∀ p ∈ m, p.2.id = p.1

theorem alookup_mem {κ ν : Type} [DecidableEq κ] (m : List (κ × ν)) (k : κ)
    (v : ν) (h : alookup m k = some v) : (k, v) ∈ m := by
  induction m with
  | nil => simp [alookup] at h
  | cons p ps ih =>
    by_cases hp : p.1 = k
    · simp only [alookup, if_pos hp, Option.some.injEq] at h
      exact List.mem_cons.mpr (Or.inl (by rw [← hp, ← h]))
    · simp only [alookup, if_neg hp] at h
      exact List.mem_cons.mpr (Or.inr (ih h))

theorem mem_ainsert {κ ν : Type} [DecidableEq κ] (m : List (κ × ν)) (k : κ)
    (v : ν) (p : κ × ν) (h : p ∈ ainsert m k v) : p = (k, v) ∨ p ∈ m := by
  induction m with
  | nil => simpa [ainsert] using h
  | cons q qs ih =>
    by_cases hq : q.1 = k
    · simp only [ainsert, if_pos hq, List.mem_cons] at h
      rcases h with h | h
      · exact Or.inl h
      · exact Or.inr (List.mem_cons.mpr (Or.inr h))
    · simp only [ainsert, if_neg hq, List.mem_cons] at h
      rcases h with h | h
      · exact Or.inr (List.mem_cons.mpr (Or.inl h))
      · rcases ih h with h1 | h1
        · exact Or.inl h1
        · exact Or.inr (List.mem_cons.mpr (Or.inr h1))

theorem mem_aremove {κ ν : Type} [DecidableEq κ] (m : List (κ × ν)) (k : κ)
    (p : κ × ν) (h : p ∈ aremove m k) : p ∈ m := by
  induction m with
  | nil => simpa [aremove] using h
  | cons q qs ih =>
    by_cases hq : q.1 = k
    · simp only [aremove, if_pos hq] at h
      exact List.mem_cons.mpr (Or.inr (ih h))
    · simp only [aremove, if_neg hq, List.mem_cons] at h
      rcases h with h | h
      · exact List.mem_cons.mpr (Or.inl h)
      · exact List.mem_cons.mpr (Or.inr (ih h))

theorem withdraw_step_coherent (now : Nat) (user : String) (acc : WithdrawAcc)
    (r : UnbondRequest) (hco : batches_coherent acc.batches) :
    batches_coherent (withdraw_step now user acc r).batches := by
  unfold withdraw_step
  split
  · exact hco
  · rename_i b hb
    split
    · dsimp only
      split
      · intro p hp
        exact hco p (mem_aremove _ _ _ hp)
      · intro p hp
        rcases mem_ainsert _ _ _ _ hp with h | h
        · rw [h]
        · exact hco p h
    · exact hco

theorem withdraw_step_batches_ne (now : Nat) (user : String) (acc : WithdrawAcc)
    (r : UnbondRequest) (k : Nat) (hco : batches_coherent acc.batches)
    (hk : k ≠ r.id) :
    alookup (withdraw_step now user acc r).batches k = alookup acc.batches k := by
  unfold withdraw_step
  split
  · rfl
  · rename_i b hb
    have hbid : b.id = r.id := hco _ (alookup_mem _ _ _ hb)
    split
    · dsimp only
      split
      · rw [alookup_aremove_ne _ _ _ hk]
      · rw [alookup_ainsert_ne _ _ _ _ (by rw [hbid]; exact hk)]
    · rfl

theorem withdraw_step_requests_ne (now : Nat) (user : String)
    (acc : WithdrawAcc) (r : UnbondRequest) (key : Nat × String)
    (hk : key ≠ (r.id, user)) :
    alookup (withdraw_step now user acc r).requests key =
      alookup acc.requests key := by
  unfold withdraw_step
  split
  · rfl
  · split
    · dsimp only
      rw [alookup_aremove_ne _ _ _ hk]
    · rfl

theorem withdraw_step_total (now : Nat) (user : String) (acc : WithdrawAcc)
    (r : UnbondRequest) :
    (withdraw_step now user acc r).total =
      acc.total + refund_of acc.batches now r := by
  unfold withdraw_step refund_of
  split
  · simp
  · rename_i b hb
    split
    · dsimp only
    · simp

theorem withdraw_step_eligible (now : Nat) (user : String) (acc : WithdrawAcc)
    (r : UnbondRequest) (b : Batch) (hb : alookup acc.batches r.id = some b)
    (helig : b.reconciled ∧ b.est_unbond_end_time < now) :
    withdraw_step now user acc r =
      { batches :=
          if b.total_shares - r.shares = 0 then aremove acc.batches r.id
          else ainsert acc.batches b.id
            { b with
              total_shares := b.total_shares - r.shares
              utoken_unclaimed := b.utoken_unclaimed -
                b.utoken_unclaimed * r.shares / b.total_shares }
        requests := aremove acc.requests (r.id, user)
        total := acc.total + b.utoken_unclaimed * r.shares / b.total_shares } := by
  unfold withdraw_step
  rw [hb]
  dsimp only
  rw [if_pos helig]

theorem withdraw_step_not_eligible (now : Nat) (user : String)
    (acc : WithdrawAcc) (r : UnbondRequest)
    (h : ∀ b, alookup acc.batches r.id = some b →
      ¬ (b.reconciled ∧ b.est_unbond_end_time < now)) :
    withdraw_step now user acc r = acc := by
  unfold withdraw_step
  split
  · rfl
  · rename_i b hb
    rw [if_neg (h b hb)]

theorem withdraw_fold_coherent (now : Nat) (user : String)
    (rs : List UnbondRequest) :
    ∀ acc : WithdrawAcc, batches_coherent acc.batches →
      batches_coherent ((rs.foldl (withdraw_step now user) acc)).batches := by
  induction rs with
  | nil => intro acc hco; exact hco
  | cons r rs ih =>
    intro acc hco
    rw [List.foldl_cons]
    exact ih _ (withdraw_step_coherent now user acc r hco)

theorem withdraw_fold_batches_ne (now : Nat) (user : String)
    (rs : List UnbondRequest) :
    ∀ (acc : WithdrawAcc) (k : Nat), batches_coherent acc.batches →
      k ∉ rs.map (·.id) →
      alookup ((rs.foldl (withdraw_step now user) acc)).batches k =
        alookup acc.batches k := by
  induction rs with
  | nil => intro acc k _ _; rfl
  | cons r rs ih =>
    intro acc k hco hk
    simp only [List.map_cons, List.mem_cons, not_or] at hk
    rw [List.foldl_cons,
      ih _ k (withdraw_step_coherent now user acc r hco) hk.2,
      withdraw_step_batches_ne now user acc r k hco hk.1]

theorem withdraw_fold_requests_ne (now : Nat) (user : String)
    (rs : List UnbondRequest) :
    ∀ (acc : WithdrawAcc) (k : Nat) (u : String), k ∉ rs.map (·.id) →
      alookup ((rs.foldl (withdraw_step now user) acc)).requests (k, u) =
        alookup acc.requests (k, u) := by
  induction rs with
  | nil => intro acc k u _; rfl
  | cons r rs ih =>
    intro acc k u hk
    simp only [List.map_cons, List.mem_cons, not_or] at hk
    rw [List.foldl_cons, ih _ k u hk.2,
      withdraw_step_requests_ne now user acc r (k, u)
        (fun hc => hk.1 (congrArg Prod.fst hc))]

theorem withdraw_fold_total (now : Nat) (user : String)
    (rs : List UnbondRequest) :
    ∀ acc : WithdrawAcc, (rs.map (·.id)).Nodup → batches_coherent acc.batches →
      ((rs.foldl (withdraw_step now user) acc)).total =
        acc.total + (rs.map (refund_of acc.batches now)).sum := by
  induction rs with
  | nil => intro acc _ _; simp
  | cons r rs ih =>
    intro acc hnd hco
    simp only [List.map_cons, List.nodup_cons] at hnd
    simp only [List.foldl_cons, List.map_cons, List.sum_cons]
    rw [ih _ hnd.2 (withdraw_step_coherent now user acc r hco),
      withdraw_step_total]
    have hcongr : rs.map (refund_of (withdraw_step now user acc r).batches now) =
        rs.map (refund_of acc.batches now) := by
      refine List.map_congr_left ?_
      intro x hx
      have hne : x.id ≠ r.id := by
        intro hc
        exact hnd.1 (hc ▸ List.mem_map.mpr ⟨x, hx, rfl⟩)
      unfold refund_of
      rw [withdraw_step_batches_ne now user acc r x.id hco hne]
    rw [hcongr]
    omega


--------------------------------------------------------------------------------
-- C3: withdraw_unbonded — the amended per-request payout theorem
--------------------------------------------------------------------------------

/-- The ids of a user's requests are pairwise distinct (one request per
batch per user). -/
theorem user_requests_ids_nodup (st : HubState) (user : String)
    (hrco : ∀ p ∈ st.unbond_requests, p.1 = (p.2.id, p.2.user))
    (hrnd : (st.unbond_requests.map (·.1)).Nodup) :
    ((user_requests st user).map (·.id)).Nodup := by
  have hsub : List.Sublist
      ((st.unbond_requests.filter (fun p => p.1.2 = user)).map (·.1))
      (st.unbond_requests.map (·.1)) :=
    (List.filter_sublist _).map _
  have h1 : ((st.unbond_requests.filter (fun p => p.1.2 = user)).map
      (·.1)).Nodup := hsub.nodup hrnd
  have h2 : (st.unbond_requests.filter (fun p => p.1.2 = user)).map (·.1) =
      ((st.unbond_requests.filter (fun p => p.1.2 = user)).map
        (fun p => p.2.id)).map (fun i => (i, user)) := by
    rw [List.map_map]
    refine List.map_congr_left ?_
    intro p hp
    have hmem := List.mem_of_mem_filter hp
    have hcond : p.1.2 = user := by simpa using List.of_mem_filter hp
    have hco := hrco p hmem
    rw [hco] at hcond ⊢
    simp only at hcond
    rw [hcond]
    rfl
  have h3 : ((st.unbond_requests.filter (fun p => p.1.2 = user)).map
      (fun p => p.2.id)).Nodup := by
    refine List.Nodup.of_map (fun i => (i, user)) ?_
    rw [← h2]
    exact h1
  have h4 : (user_requests st user).map (·.id) =
      (st.unbond_requests.filter (fun p => p.1.2 = user)).map
        (fun p => p.2.id) := by
    unfold user_requests
    rw [List.map_map]
    rfl
  rw [h4]
  exact h3

/-- A user's request, as scanned by the index, is stored under the key
`(r.id, user)`. -/
theorem user_request_lookup (st : HubState) (user : String) (r : UnbondRequest)
    (hr : r ∈ user_requests st user)
    (hrco : ∀ p ∈ st.unbond_requests, p.1 = (p.2.id, p.2.user))
    (hrnd : (st.unbond_requests.map (·.1)).Nodup) :
    alookup st.unbond_requests (r.id, user) = some r := by
  unfold user_requests at hr
  obtain ⟨p, hp, hpr⟩ := List.mem_map.mp hr
  have hmem := List.mem_of_mem_filter hp
  have hcond : p.1.2 = user := by simpa using List.of_mem_filter hp
  have hco := hrco p hmem
  have huser : p.2.user = user := by
    rw [hco] at hcond
    simpa using hcond
  have hp1 : p.1 = (r.id, user) := by
    rw [hpr] at huser
    rw [hco, hpr, huser]
  have hpair : ((r.id, user), r) = p := by
    rw [← hp1, ← hpr]
  exact alookup_of_mem _ _ _ (hpair ▸ hmem) hrnd

/-- C3 (amended): for a well-formed store, a successful `withdraw_unbonded`
pays the user the sum of `floor(batch.utoken_unclaimed · request.shares /
batch.total_shares)` over the user's requests whose batch is reconciled and
strictly matured (`est_unbond_end_time < now`); each such request is removed,
its batch's `total_shares` and `utoken_unclaimed` are decremented
accordingly, and the batch is deleted exactly when its `total_shares`
reaches zero; requests in unreconciled or not-strictly-matured batches (and
their batches) are untouched.  The call succeeds only when the total payout
is nonzero — a zero total aborts with `CantBeZero`, reverting everything. -/
theorem withdraw_unbonded_spec (st : HubState) (env : HubEnv)
    (user receiver : String)
    (hbco : ∀ p ∈ st.previous_batches, p.2.id = p.1)
    (hrco : ∀ p ∈ st.unbond_requests, p.1 = (p.2.id, p.2.user))
    (hrnd : (st.unbond_requests.map (·.1)).Nodup)
    (hshares : ∀ p ∈ st.unbond_requests, ∀ q ∈ st.previous_batches,
      p.2.id = q.1 → p.2.shares ≤ q.2.total_shares)
    (st' : HubState) (msgs : List Msg)
    (h : withdraw_unbonded st env user receiver = .ok (st', msgs)) :
    msgs = [Msg.bankSendMsg receiver
      ((user_requests st user).map (refund_of st.previous_batches env.now)).sum
      st.stake_token.utoken] ∧
    ((user_requests st user).map (refund_of st.previous_batches env.now)).sum ≠ 0 ∧
    (∀ r ∈ user_requests st user,
      (∀ b, alookup st.previous_batches r.id = some b →
        b.reconciled ∧ b.est_unbond_end_time < env.now →
        alookup st'.unbond_requests (r.id, user) = none ∧
        (r.shares = b.total_shares → alookup st'.previous_batches r.id = none) ∧
        (r.shares ≠ b.total_shares →
          alookup st'.previous_batches r.id = some
            { b with
              total_shares := b.total_shares - r.shares
              utoken_unclaimed := b.utoken_unclaimed -
                b.utoken_unclaimed * r.shares / b.total_shares })) ∧
      ((∀ b, alookup st.previous_batches r.id = some b →
          ¬ (b.reconciled ∧ b.est_unbond_end_time < env.now)) →
        alookup st'.previous_batches r.id = alookup st.previous_batches r.id ∧
        alookup st'.unbond_requests (r.id, user) = some r)) := by
  have hidnd := user_requests_ids_nodup st user hrco hrnd
  simp only [withdraw_unbonded] at h
  split at h
  · exact (Except.noConfusion h : False).elim
  · rename_i htot
    simp only [Except.ok.injEq, Prod.mk.injEq] at h
    obtain ⟨hst, hmsgs⟩ := h
    have htotal := withdraw_fold_total env.now user (user_requests st user)
      ⟨st.previous_batches, st.unbond_requests, 0⟩ hidnd hbco
    refine ⟨?_, ?_, ?_⟩
    · rw [← hmsgs, htotal]
      simp
    · intro hzero
      apply htot
      rw [htotal]
      dsimp only
      omega
    · intro r hr
      obtain ⟨l1, l2, hsplit⟩ := List.append_of_mem hr
      have hids : ((l1 ++ r :: l2).map (·.id)).Nodup := by
        rw [← hsplit]
        exact hidnd
      simp only [List.map_append, List.map_cons, List.nodup_append,
        List.nodup_cons] at hids
      obtain ⟨hnd1, ⟨hnotin2, hnd2⟩, hdisj⟩ := hids
      have hnotin1 : r.id ∉ l1.map (·.id) :=
        fun hmem => hdisj hmem (List.mem_cons_self _ _)
      set acc1 := l1.foldl (withdraw_step env.now user)
        (⟨st.previous_batches, st.unbond_requests, 0⟩ : WithdrawAcc) with hacc1
      have hfold_split : (user_requests st user).foldl (withdraw_step env.now user)
          (⟨st.previous_batches, st.unbond_requests, 0⟩ : WithdrawAcc) =
          l2.foldl (withdraw_step env.now user)
            (withdraw_step env.now user acc1 r) := by
        rw [hsplit, List.foldl_append, List.foldl_cons]
      have hco1 : batches_coherent acc1.batches :=
        withdraw_fold_coherent env.now user l1 _ hbco
      have hpre_b : alookup acc1.batches r.id = alookup st.previous_batches r.id :=
        withdraw_fold_batches_ne env.now user l1 _ r.id hbco hnotin1
      have hpre_r : alookup acc1.requests (r.id, user) =
          alookup st.unbond_requests (r.id, user) :=
        withdraw_fold_requests_ne env.now user l1 _ r.id user hnotin1
      constructor
      · intro b hb helig
        have hb1 : alookup acc1.batches r.id = some b := by
          rw [hpre_b]
          exact hb
        have hbid : b.id = r.id := hbco _ (alookup_mem _ _ _ hb)
        have hstep := withdraw_step_eligible env.now user acc1 r b hb1 helig
        have hco2 : batches_coherent (withdraw_step env.now user acc1 r).batches :=
          withdraw_step_coherent env.now user acc1 r hco1
        have hshr : r.shares ≤ b.total_shares := by
          have hmem_r : ((r.id, user), r) ∈ st.unbond_requests :=
            alookup_mem _ _ _ (user_request_lookup st user r hr hrco hrnd)
          have hmem_b : (r.id, b) ∈ st.previous_batches := alookup_mem _ _ _ hb
          exact hshares _ hmem_r _ hmem_b rfl
        refine ⟨?_, ?_, ?_⟩
        · rw [← hst]
          dsimp only
          rw [hfold_split,
            withdraw_fold_requests_ne env.now user l2 _ r.id user hnotin2, hstep]
          exact alookup_aremove_self _ _
        · intro hc
          rw [← hst]
          dsimp only
          rw [hfold_split,
            withdraw_fold_batches_ne env.now user l2 _ r.id hco2 hnotin2, hstep]
          dsimp only
          rw [if_pos (by omega)]
          exact alookup_aremove_self _ _
        · intro hc
          rw [← hst]
          dsimp only
          rw [hfold_split,
            withdraw_fold_batches_ne env.now user l2 _ r.id hco2 hnotin2, hstep]
          dsimp only
          rw [if_neg (by omega)]
          rw [show b.id = r.id from hbid]
          exact alookup_ainsert_self _ _ _
      · intro hnelig
        have hne' : ∀ b, alookup acc1.batches r.id = some b →
            ¬ (b.reconciled ∧ b.est_unbond_end_time < env.now) := by
          intro b hb1
          refine hnelig b ?_
          rw [← hpre_b]
          exact hb1
        have hstep := withdraw_step_not_eligible env.now user acc1 r hne'
        constructor
        · rw [← hst]
          dsimp only
          rw [hfold_split, hstep,
            withdraw_fold_batches_ne env.now user l2 _ r.id hco1 hnotin2, hpre_b]
        · rw [← hst]
          dsimp only
          rw [hfold_split, hstep,
            withdraw_fold_requests_ne env.now user l2 _ r.id user hnotin2, hpre_r]
          exact user_request_lookup st user r hr hrco hrnd

/-- Spec scenario 4's first half: users A (60 shares) and B (40 shares) in a
reconciled batch of 100 shares and 102500 utoken. -/
def exWithdrawState : HubState :=
  { exState with
    previous_batches := [(1, ⟨1, true, 100, 102500, 100⟩)]
    unbond_requests := [((1, "userA"), ⟨1, "userA", 60⟩),
                        ((1, "userB"), ⟨1, "userB", 40⟩)] }

/-- The state after user A withdraws: the batch drops to 40 shares / 41000
utoken and A's request is gone. -/
def exWithdrawOut : HubState :=
  { exWithdrawState with
    previous_batches := [(1, ⟨1, true, 40, 41000, 100⟩)]
    unbond_requests := [((1, "userB"), ⟨1, "userB", 40⟩)] }

/-- Witness for C3's amended claim: user A withdraws 61500 = floor(102500 ·
60 / 100); the request is removed and the batch decremented. -/
theorem withdraw_unbonded_spec_witness :
    ((user_requests exWithdrawState "userA").map
      (refund_of exWithdrawState.previous_batches 101)).sum ≠ 0 ∧
    alookup exWithdrawOut.unbond_requests (1, "userA") = none ∧
    alookup exWithdrawOut.previous_batches 1 = some ⟨1, true, 40, 41000, 100⟩ := by
  have h := withdraw_unbonded_spec exWithdrawState ⟨101, [], ["alice"]⟩
    "userA" "userA" (by decide) (by decide) (by decide) (by decide)
    exWithdrawOut [Msg.bankSendMsg "userA" 61500 "utoken"] (by rfl)
  have h3 := (h.2.2 ⟨1, "userA", 60⟩ (by decide)).1 ⟨1, true, 100, 102500, 100⟩
    (by decide) (by decide)
  exact ⟨h.2.1, h3.1, h3.2.2 (by decide)⟩

end AllianceLst
